import Mathlib

/-!
Verification of the athenamesh application state machine

A shallow embedding, in Lean 4, of the deterministic application state
machine of the athenamesh repository: the typed-value codec
(`badgertype.go`), the symlink-maintaining path store and resolver
(`app/app.go`, symlink section), the account model (`app` package account
code), the access-control engine and the transaction executor
(`app/app-exec.go`), and the transaction unpacker (`app/app.go`).

Modelling conventions, used throughout:

* Go byte slices and Go strings are both modelled as `List Nat` (a Go
  string is an arbitrary byte sequence); `str s` converts an ASCII Lean
  string literal to its byte list.
* The badger key-value store is modelled as an association list from
  byte-string keys to *decoded* typed values (`Store`).  The source
  stores the `ToBadgerType` encoding of each value and decodes on read
  (`GetBadgerVal`); the codec round-trip theorem proved below justifies
  keeping decoded values in the store model.  Store reads never fail in
  the model (disk faults are out of scope).
* External collaborators are parameters: Ed25519 verification is a
  function argument `ed`, and the JSON decoder of `encoding/json` is a
  function argument `jsonDec` (the one fact used about it — decoding an
  empty input fails, with `io.EOF` — is a hypothesis where needed).
* Go runtime panics (index out of range, slice bounds) are modelled as
  explicit `panic`-constructors of the result types; slice capacity is
  modelled as equal to slice length.
* Go's `regexp` is modelled by dedicated matcher functions, one per
  pattern constant of the source, computing the `FindStringSubmatch`
  result (full match followed by capture groups) for that pattern.
-/
/-! ## Bytes and byte-string helpers -/
/-- Go byte slices and Go strings, as lists of byte values. -/
abbrev Bytes := List Nat

/-- Byte list of an ASCII string literal. -/
def str (s : String) : Bytes := s.data.map Char.toNat

/-- Little-endian interpretation of a byte list as a natural number
(`binary.LittleEndian.Uint32/Uint64` on the listed bytes). -/
def leToNat : Bytes → Nat
  | [] => 0
  | b :: bs => b + 256 * leToNat bs

/-- The `w`-byte little-endian encoding of `v`
(`binary.LittleEndian.PutUint64` and friends). -/
def natToLE : Nat → Nat → Bytes
  | 0, _ => []
  | w + 1, v => v % 256 :: natToLE w (v / 256)

/-- Big-endian interpretation of a byte list as a natural number. -/
def beToNat : Bytes → Nat
  | [] => 0
  | b :: bs => b * 256 ^ bs.length + beToNat bs

/-- Signed (two's-complement) interpretation of a big-endian byte list:
the value whose sign is given by the top bit of the leading byte. -/
def sextBE (bs : Bytes) : Int :=
  if 128 ≤ bs.headD 0 then (beToNat bs : Int) - 2 ^ (8 * bs.length) else (beToNat bs : Int)

/-- Signed (two's-complement) interpretation of a little-endian byte list. -/
def sextLE (bs : Bytes) : Int := sextBE bs.reverse

/-! ## Integer payload trimming (`toBadgerTypeInt` / `toBadgerTypeUint`)

The source trims the 8-byte little-endian buffer from its most
significant end: `for len(bits) > 1 && cond { bits = bits[:len(bits)-1] }`.
We implement the loop structurally on the reversed (big-endian) list —
the loop examines the last two bytes of the LE buffer, which are the
first two of the BE list, and drops the most significant one. -/
/-- Big-endian form of the signed trim loop of `toBadgerTypeInt`:
drop the leading byte while it is pure sign extension
(`(bits[last] == 0 && bits[last-1] < 0x80) || (bits[last] == 0xFF && bits[last-1] >= 0x80)`). -/
def trimIntBE : Bytes → Bytes
  | [] => []
  | [b] => [b]
  | b :: b2 :: rest =>
      if (b = 0 ∧ b2 < 128) ∨ (b = 255 ∧ 128 ≤ b2) then trimIntBE (b2 :: rest)
      else b :: b2 :: rest

/-- Big-endian form of the unsigned trim loop of `toBadgerTypeUint`:
drop the leading byte while `bits[last] == 0 && bits[last-1] < 0x80`. -/
def trimUintBE : Bytes → Bytes
  | [] => []
  | [b] => [b]
  | b :: b2 :: rest =>
      if b = 0 ∧ b2 < 128 then trimUintBE (b2 :: rest)
      else b :: b2 :: rest

/-- Model of `toBadgerTypeInt` (`badgertype.go`): tag byte 2 followed by the
sign-extension-trimmed little-endian two's-complement bytes of `val`. -/
def toBadgerTypeInt (val : Int) : Bytes :=
  2 :: (trimIntBE (natToLE 8 ((val % 2 ^ 64).toNat)).reverse).reverse

/-- Model of `toBadgerTypeUint` (`badgertype.go`): tag byte 2 followed by the
zero-trimmed little-endian bytes of `val` and a trailing `0`
disambiguator byte. -/
def toBadgerTypeUint (val : Nat) : Bytes :=
  2 :: ((trimUintBE (natToLE 8 val).reverse).reverse ++ [0])

/-! ## Varint (`readVarint` / `writeVarint`, `badgertype.go`)

UTF-8-style big-endian varint.  `readVarint` distinguishes three
outcomes: a decoded `(value, size)`, the source's `(0, 0)` "malformed
continuation" return (`bad`), and a Go index-out-of-range panic when the
input is shorter than the announced size (`panic`). -/
inductive VarintRes where
  | ok (value : Nat) (size : Nat)
  | bad
  | panic
deriving DecidableEq, Repr

inductive ContRes where
  | ok (acc : Nat)
  | bad
  | panic
deriving DecidableEq, Repr

/-- The continuation-byte loop of `readVarint`: each byte must carry the
`10xxxxxx` marker (`c/64 = 2`) and contributes its low six bits. -/
def readVarCont : Nat → Nat → Bytes → ContRes
  | 0, acc, _ => .ok acc
  | _ + 1, _, [] => .panic
  | n + 1, acc, c :: rest =>
      if c / 64 = 2 then readVarCont n (acc * 64 + c % 64) rest else .bad

/-- Model of `readVarint` (`badgertype.go`). -/
def readVarint (src : Bytes) : VarintRes :=
  match src with
  | [] => .panic
  | c :: rest =>
      if c < 128 then .ok c 1
      else if c < 192 then .bad
      else
        let sz := if c < 224 then 1 else if c < 240 then 2 else if c < 248 then 3
          else if c < 252 then 4 else if c < 254 then 5 else 6
        let init := if c < 224 then c % 32 else if c < 240 then c % 16 else if c < 248 then c % 8
          else if c < 252 then c % 4 else if c < 254 then c % 2 else 0
        match readVarCont sz init rest with
        | .ok acc => .ok acc (sz + 1)
        | .bad => .bad
        | .panic => .panic

/-- The continuation bytes of `writeVarint`: `n` bytes holding the low
`6*n` bits of `val`, most significant group first, each tagged `10xxxxxx`. -/
def vbytes : Nat → Nat → Bytes
  | 0, _ => []
  | n + 1, v => (v / 64 ^ n % 64 + 128) :: vbytes n v

/-- Model of `writeVarint` (`badgertype.go`). -/
def writeVarint (val : Nat) : Bytes :=
  if val < 0x80 then [val]
  else if val < 0x800 then (val / 64 % 32 + 192) :: vbytes 1 val
  else if val < 0x10000 then (val / 4096 % 16 + 224) :: vbytes 2 val
  else if val < 0x200000 then (val / 262144 % 8 + 240) :: vbytes 3 val
  else if val < 0x4000000 then (val / 16777216 % 4 + 248) :: vbytes 4 val
  else if val < 0x80000000 then (val / 1073741824 % 2 + 252) :: vbytes 5 val
  else 254 :: vbytes 6 val

/-! ## Typed values

`BVal` mirrors the dynamic types that `fromBadgerType` can produce
(`bool`, `int32`, `int64`, `uint64`, `float32`, `float64`, `string`,
`[]byte`, `[]interface{}`, `map[string]interface{}`).  Floats are
represented by their IEEE-754 bit patterns (`math.Float32/64frombits` is
a bijection onto the bit patterns, and the codec only moves the bits).
`TVal` is the spec's abstract typed-value set (§3: a single `Int` arm);
`toTVal` is the evident erasure. -/
inductive BVal where
  | bool (b : Bool)
  | i32 (v : Int)
  | i64 (v : Int)
  | u64 (v : Nat)
  | f32 (bits : Nat)
  | f64 (bits : Nat)
  | str (s : Bytes)
  | bytes (bs : Bytes)
  | arr (vs : List BVal)
  | map (kvs : List (Bytes × BVal))

inductive TVal where
  | bool (b : Bool)
  | int (v : Int)
  | f32 (bits : Nat)
  | f64 (bits : Nat)
  | str (s : Bytes)
  | bytes (bs : Bytes)
  | arr (vs : List TVal)
  | map (kvs : List (Bytes × TVal))

mutual

/-- Erase the Go-level width distinction between decoded integers
(`int32` / `int64` / `uint64` all are "Int" in the spec's data model). -/
def toTVal : BVal → TVal
  | .bool b => .bool b
  | .i32 v => .int v
  | .i64 v => .int v
  | .u64 v => .int v
  | .f32 b => .f32 b
  | .f64 b => .f64 b
  | .str s => .str s
  | .bytes bs => .bytes bs
  | .arr vs => .arr (toTValList vs)
  | .map kvs => .map (toTValPairs kvs)

def toTValList : List BVal → List TVal
  | [] => []
  | v :: rest => toTVal v :: toTValList rest

def toTValPairs : List (Bytes × BVal) → List (Bytes × TVal)
  | [] => []
  | (k, v) :: rest => (k, toTVal v) :: toTValPairs rest

end

/-- Result of `fromBadgerType`: a value, a propagated error, or a Go
runtime panic (index out of range / slice bounds). -/
inductive DRes where
  | ok (v : BVal)
  | err
  | panic

inductive LRes (α : Type) where
  | ok (xs : List α)
  | err
  | panic

/-- Sign-extension padding used by the integer branches of
`fromBadgerType` (`append(bits, 0xff/0x00 ×3)` then reading `w` bytes). -/
def signFillLE (w : Nat) (bs : Bytes) : Bytes :=
  bs ++ List.replicate (w - bs.length) (if 128 ≤ bs.getLastD 0 then 255 else 0)

/-- Go map insertion `vals[key] = value`: replace an existing record for
the key, otherwise append. -/
def mapPut (m : List (Bytes × BVal)) (k : Bytes) (v : BVal) : List (Bytes × BVal) :=
  match m with
  | [] => [(k, v)]
  | (k', v') :: rest => if k' = k then (k, v) :: rest else (k', v') :: mapPut rest k v

/-- The non-recursive branches of `fromBadgerType` (`badgertype.go`):
tags 1–5 and the unknown-tag default.  Both float cases re-slice the
input as `val[1:9]`: on the 9-byte `float64` form this reads the 8
payload bytes, but on the 5-byte `float32` form it runs past the end of
the slice — a slice-bounds panic (slice capacity is modelled as equal to
slice length). -/
def decodeScalarTag (tag : Nat) (rest : Bytes) : DRes :=
  if tag = 1 then
    match rest with
    | [] => .err  -- "data too short"
    | b :: _ => .ok (.bool (b ≠ 0))
  else if tag = 2 then
    -- switch len(val), where len(val) = rest.length + 1
    if rest.length + 1 = 10 then .ok (.u64 (leToNat (rest.take 8)))
    else if 6 ≤ rest.length + 1 ∧ rest.length + 1 ≤ 9 then
      .ok (.i64 (sextLE (signFillLE 8 rest)))
    else if 2 ≤ rest.length + 1 ∧ rest.length + 1 ≤ 5 then
      .ok (.i32 (sextLE (signFillLE 4 rest)))
    else .err  -- "unexpected data length"
  else if tag = 3 then
    if rest.length + 1 = 5 then .panic  -- val[1:9] on a 5-byte value: slice bounds
    else if rest.length + 1 = 9 then .ok (.f64 (leToNat rest))
    else .err  -- "unexpected data length"
  else if tag = 4 then .ok (.str rest)
  else if tag = 5 then .ok (.bytes rest)
  else .err  -- "Unexpected datatype"

mutual

/-- Model of `fromBadgerType` (`badgertype.go`), with a structural fuel argument
(recursion is on ever shorter slices; any `fuel > val.length` computes
the function, see `goDecodeF_irrel`). -/
def goDecodeF : Nat → Bytes → DRes
  | 0, _ => .panic
  | _ + 1, [] => .err  -- "cannot interpret empty string"
  | fuel + 1, tag :: rest =>
      if tag = 6 then
        match arrLoopF fuel rest with
        | .ok vs => .ok (.arr vs)
        | .err => .err
        | .panic => .panic
      else if tag = 7 then
        match mapLoopF fuel rest with
        | .ok recs => .ok (.map (recs.foldl (fun m kv => mapPut m kv.1 kv.2) []))
        | .err => .err
        | .panic => .panic
      else decodeScalarTag tag rest

/-- The `typeArray` loop of `fromBadgerType`. -/
def arrLoopF : Nat → Bytes → LRes BVal
  | 0, _ => .panic
  | _ + 1, [] => .ok []
  | fuel + 1, r :: rs =>
      match readVarint (r :: rs) with
      | .bad => .err  -- "unexpected array element length"
      | .panic => .panic
      | .ok entryLen lenSize =>
          if (r :: rs).length < entryLen + lenSize then .panic  -- slice bounds
          else
            match goDecodeF fuel (((r :: rs).drop lenSize).take entryLen) with
            | .err => .err
            | .panic => .panic
            | .ok v =>
                match arrLoopF fuel ((r :: rs).drop (entryLen + lenSize)) with
                | .ok vs => .ok (v :: vs)
                | .err => .err
                | .panic => .panic

/-- The `typeMap` loop of `fromBadgerType`, returning the records in
input order. -/
def mapLoopF : Nat → Bytes → LRes (Bytes × BVal)
  | 0, _ => .panic
  | _ + 1, [] => .ok []
  | fuel + 1, r :: rs =>
      match readVarint (r :: rs) with
      | .bad => .err  -- "unexpected key element length"
      | .panic => .panic
      | .ok keyLen ls1 =>
          if (r :: rs).length < keyLen + ls1 then .panic  -- slice bounds
          else
            match readVarint ((r :: rs).drop (keyLen + ls1)) with
            | .bad => .err  -- "unexpected value element length"
            | .panic => .panic
            | .ok valueLen ls2 =>
                if ((r :: rs).drop (keyLen + ls1)).length < valueLen + ls2 then .panic
                else
                  match goDecodeF fuel ((((r :: rs).drop (keyLen + ls1)).drop ls2).take valueLen) with
                  | .err => .err
                  | .panic => .panic
                  | .ok v =>
                      match mapLoopF fuel (((r :: rs).drop (keyLen + ls1)).drop (valueLen + ls2)) with
                      | .ok kvs => .ok ((((r :: rs).drop ls1).take keyLen, v) :: kvs)
                      | .err => .err
                      | .panic => .panic

end

/-- Model of `fromBadgerType` proper: run the decoder with sufficient fuel. -/
def fromBadgerType (val : Bytes) : DRes := goDecodeF (val.length + 1) val

/-! ## Encoding (`ToBadgerType`)

`specEncode` encodes the spec's abstract typed values the way the source
encodes the values that reach it through JSON (`json.Number` integers:
`strconv.ParseInt`, falling back to `strconv.ParseUint`; strings,
booleans, byte slices, arrays and string-keyed maps structurally). -/
mutual

def specEncode : TVal → Except Unit Bytes
  | .bool b => .ok [1, if b then 1 else 0]
  | .int v =>
      if -2 ^ 63 ≤ v ∧ v < 2 ^ 63 then .ok (toBadgerTypeInt v)
      else if 0 ≤ v ∧ v < 2 ^ 64 then .ok (toBadgerTypeUint v.toNat)
      else .error ()
  | .f32 bits => .ok (3 :: natToLE 4 bits)
  | .f64 bits => .ok (3 :: natToLE 8 bits)
  | .str s => .ok (4 :: s)
  | .bytes bs => .ok (5 :: bs)
  | .arr vs =>
      match encodeArr vs with
      | .ok body => .ok (6 :: body)
      | .error e => .error e
  | .map kvs =>
      match encodePairs kvs with
      | .ok body => .ok (7 :: body)
      | .error e => .error e

/-- The `[]interface{}` arm of `ToBadgerType`:
`[varint length][encoded element]` records. -/
def encodeArr : List TVal → Except Unit Bytes
  | [] => .ok []
  | v :: rest =>
      match specEncode v with
      | .error e => .error e
      | .ok entry =>
          match encodeArr rest with
          | .error e => .error e
          | .ok r => .ok (writeVarint entry.length ++ entry ++ r)

/-- The `map[string]interface{}` arm of `ToBadgerType`:
`[varint key length][key][varint value length][encoded value]` records,
in association-list order (one fixed iteration order of the Go map). -/
def encodePairs : List (Bytes × TVal) → Except Unit Bytes
  | [] => .ok []
  | (k, v) :: rest =>
      match specEncode v with
      | .error e => .error e
      | .ok entry =>
          match encodePairs rest with
          | .error e => .error e
          | .ok r => .ok (writeVarint k.length ++ k ++ writeVarint entry.length ++ entry ++ r)

end

/-- The encoding of `v` exists and is short enough to appear as an
array/map element (its length fits the 6-byte varint range). -/
def encLenOk (v : TVal) : Bool :=
  match specEncode v with
  | .ok e => decide (e.length < 2 ^ 36)
  | .error _ => false

def keysNodup : List (Bytes × TVal) → Bool
  | [] => true
  | (k, _) :: rest => rest.all (fun q => decide (q.1 ≠ k)) && keysNodup rest

mutual

/-- The supported typed-value set (§3): integers within the codec's
documented range, floats by their bit patterns, byte-valued strings,
and recursively well-formed arrays and maps with distinct keys; nested
elements must fit the varint length prefix. -/
def wfT : TVal → Bool
  | .bool _ => true
  | .int v => decide (-2 ^ 63 ≤ v ∧ v < 2 ^ 64)
  | .f32 b => decide (b < 2 ^ 32)
  | .f64 b => decide (b < 2 ^ 64)
  | .str s => s.all (fun b => decide (b < 256))
  | .bytes bs => bs.all (fun b => decide (b < 256))
  | .arr vs => wfTList vs
  | .map kvs => wfTPairs kvs && keysNodup kvs

def wfTList : List TVal → Bool
  | [] => true
  | v :: rest => wfT v && encLenOk v && wfTList rest

def wfTPairs : List (Bytes × TVal) → Bool
  | [] => true
  | (k, v) :: rest =>
      k.all (fun b => decide (b < 256)) && decide (k.length < 2 ^ 36) &&
        wfT v && encLenOk v && wfTPairs rest

end

mutual

/-- No `float32` value occurs anywhere inside `v`: the decoder's
`float32` branch is a slice-bounds panic on the encoder's own output
(`val[1:9]` of a 5-byte value), so the round-trip can only be stated
away from that arm. -/
def noF32 : TVal → Bool
  | .bool _ => true
  | .int _ => true
  | .f32 _ => false
  | .f64 _ => true
  | .str _ => true
  | .bytes _ => true
  | .arr vs => noF32List vs
  | .map kvs => noF32Pairs kvs

def noF32List : List TVal → Bool
  | [] => true
  | v :: rest => noF32 v && noF32List rest

def noF32Pairs : List (Bytes × TVal) → Bool
  | [] => true
  | (_, v) :: rest => noF32 v && noF32Pairs rest

end

/-! ## Codec round-trip -/
/-- Round-trip property for one value: a well-formed value free of
`float32` encodes successfully and decodes back (with any sufficient
fuel) to a Go value that erases to it. -/
def RTV (v : TVal) : Prop :=
  wfT v = true → noF32 v = true →
    ∃ e, specEncode v = .ok e ∧
      ∀ fuel, e.length < fuel → ∃ g, goDecodeF fuel e = .ok g ∧ toTVal g = v

def RTL (vs : List TVal) : Prop :=
  wfTList vs = true → noF32List vs = true →
    ∃ body, encodeArr vs = .ok body ∧
      ∀ fuel, body.length < fuel →
        ∃ gs, arrLoopF fuel body = .ok gs ∧ toTValList gs = vs

def RTP (kvs : List (Bytes × TVal)) : Prop :=
  wfTPairs kvs = true → noF32Pairs kvs = true →
    ∃ body, encodePairs kvs = .ok body ∧
      ∀ fuel, body.length < fuel →
        ∃ gs, mapLoopF fuel body = .ok gs ∧ toTValPairs gs = kvs

/-! ## base64url (`encoding/base64` `RawURLEncoding`)

External library collaborator, modelled from its specification: URL-safe
alphabet, no padding. -/
/-- The URL-safe base64 alphabet, as byte values. -/
def b64Char (n : Nat) : Nat :=
  (str "ABCDEFGHIJKLMNOPQRSTUVWXYZabcdefghijklmnopqrstuvwxyz0123456789-_").getD n 0

/-- Model of `base64.RawURLEncoding.EncodeToString`. -/
def b64urlEncode : Bytes → Bytes
  | [] => []
  | [b0] => [b64Char (b0 / 4), b64Char (b0 % 4 * 16)]
  | [b0, b1] => [b64Char (b0 / 4), b64Char (b0 % 4 * 16 + b1 / 16), b64Char (b1 % 16 * 4)]
  | b0 :: b1 :: b2 :: rest =>
      b64Char (b0 / 4) :: b64Char (b0 % 4 * 16 + b1 / 16) ::
        b64Char (b1 % 16 * 4 + b2 / 64) :: b64Char (b2 % 64) :: b64urlEncode rest

/-- Value of one base64url alphabet byte. -/
def b64Val (c : Nat) : Option Nat :=
  if 65 ≤ c ∧ c ≤ 90 then some (c - 65)
  else if 97 ≤ c ∧ c ≤ 122 then some (c - 97 + 26)
  else if 48 ≤ c ∧ c ≤ 57 then some (c - 48 + 52)
  else if c = 45 then some 62
  else if c = 95 then some 63
  else none

/-- Model of `base64.RawURLEncoding.DecodeString`. -/
def b64urlDecode : Bytes → Except Unit Bytes
  | [] => .ok []
  | [_] => .error ()
  | [c0, c1] =>
      match b64Val c0, b64Val c1 with
      | some v0, some v1 => .ok [v0 * 4 + v1 / 16]
      | _, _ => .error ()
  | [c0, c1, c2] =>
      match b64Val c0, b64Val c1, b64Val c2 with
      | some v0, some v1, some v2 => .ok [v0 * 4 + v1 / 16, v1 % 16 * 16 + v2 / 4]
      | _, _, _ => .error ()
  | c0 :: c1 :: c2 :: c3 :: rest =>
      match b64Val c0, b64Val c1, b64Val c2, b64Val c3 with
      | some v0, some v1, some v2, some v3 =>
          match b64urlDecode rest with
          | .ok bs => .ok ([v0 * 4 + v1 / 16, v1 % 16 * 16 + v2 / 4, v2 % 4 * 64 + v3] ++ bs)
          | .error e => .error e
      | _, _, _, _ => .error ()

/-! ## The store

The badger key-value store is modelled as an association list from keys
to *decoded* typed values: the source writes `ToBadgerType` encodings and
`GetBadgerVal` decodes on every read, and the codec round-trip theorem
(`codec_roundtrip`) makes the two views interchangeable for every value
the engine writes.  Store reads never fail in the model. -/
abbrev Store := List (Bytes × BVal)

/-- Model of `GetBadgerVal` (`badgertype.go`), under the decoded-store model:
`nil, nil` for a missing key becomes `none`. -/
def storeGet (s : Store) (k : Bytes) : Option BVal :=
  match s with
  | [] => none
  | (k', v) :: rest => if k' = k then some v else storeGet rest k

/-- Model of `txn.Set`. -/
def storeSet (s : Store) (k : Bytes) (v : BVal) : Store :=
  match s with
  | [] => [(k, v)]
  | (k', v') :: rest => if k' = k then (k, v) :: rest else (k', v') :: storeSet rest k v

/-- Model of `txn.Delete`. -/
def storeDel (s : Store) (k : Bytes) : Store :=
  match s with
  | [] => []
  | (k', v') :: rest => if k' = k then storeDel rest k else (k', v') :: storeDel rest k

/-! ## Path patterns

Each `regexp` constant of the source is modelled by a dedicated matcher
computing the `FindStringSubmatch` result (full match, then capture
groups) for that pattern, by splitting the path on `/` (byte 47). -/
/-- Model of `strings.Split` on a separator byte. -/
def splitOnByte (sep : Nat) : Bytes → List Bytes
  | [] => [[]]
  | b :: rest =>
      match splitOnByte sep rest with
      | [] => [[]]
      | s :: ss => if b = sep then [] :: s :: ss else (b :: s) :: ss

/-- Byte-wise test that `p` is a prefix of `s`. -/
def startsWithB (p s : Bytes) : Bool := decide (s.take p.length = p)

/-- Pattern `.*` (permission path `all`): matches any path, no capture groups. -/
def matchAll (path : Bytes) : Option (List Bytes) := some [path]

/-- Pattern `^(config/rootUser)/auth$`. -/
def matchRootAuthLink (path : Bytes) : Option (List Bytes) :=
  match splitOnByte 47 path with
  | [c, r, a] =>
      if c = str "config" ∧ r = str "rootUser" ∧ a = str "auth" then
        some [path, str "config/rootUser"]
      else none
  | _ => none

/-- Pattern `^(user/[^/]+)/auth$`. -/
def matchUserAuthLink (path : Bytes) : Option (List Bytes) :=
  match splitOnByte 47 path with
  | [u, n, a] =>
      if u = str "user" ∧ n ≠ [] ∧ a = str "auth" then
        some [path, str "user/" ++ n]
      else none
  | _ => none

/-- Pattern `^(user/[^/]+/login/[^/]+)/auth$`. -/
def matchLoginAuthLink (path : Bytes) : Option (List Bytes) :=
  match splitOnByte 47 path with
  | [u, n, l, m, a] =>
      if u = str "user" ∧ n ≠ [] ∧ l = str "login" ∧ m ≠ [] ∧ a = str "auth" then
        some [path, str "user/" ++ n ++ str "/login/" ++ m]
      else none
  | _ => none

/-- Pattern `^(user/[^/]+/domain/[^/]+)/auth$`. -/
def matchDomainAuthLink (path : Bytes) : Option (List Bytes) :=
  match splitOnByte 47 path with
  | [u, n, l, m, a] =>
      if u = str "user" ∧ n ≠ [] ∧ l = str "domain" ∧ m ≠ [] ∧ a = str "auth" then
        some [path, str "user/" ++ n ++ str "/domain/" ++ m]
      else none
  | _ => none

/-- Pattern `^(user/[^/]+)/email$`. -/
def matchUserEmail (path : Bytes) : Option (List Bytes) :=
  match splitOnByte 47 path with
  | [u, n, e] =>
      if u = str "user" ∧ n ≠ [] ∧ e = str "email" then
        some [path, str "user/" ++ n]
      else none
  | _ => none

/-- Pattern `^(user/[^/]+)/` (permission path `userPrefix`). -/
def matchUserPfx (path : Bytes) : Option (List Bytes) :=
  match splitOnByte 47 path with
  | u :: n :: _ :: _ =>
      if u = str "user" ∧ n ≠ [] then some [str "user/" ++ n ++ [47], str "user/" ++ n]
      else none
  | _ => none

/-- Pattern `^(user/([^/]+))/auth$` (permission path `userAuth`, two groups). -/
def matchUserAuthPerm (path : Bytes) : Option (List Bytes) :=
  match splitOnByte 47 path with
  | [u, n, a] =>
      if u = str "user" ∧ n ≠ [] ∧ a = str "auth" then
        some [path, str "user/" ++ n, n]
      else none
  | _ => none

/-- Pattern `^(user/[^/]+)/privStore`. -/
def matchUserPrivStore (path : Bytes) : Option (List Bytes) :=
  match splitOnByte 47 path with
  | u :: n :: c :: _ =>
      if u = str "user" ∧ n ≠ [] ∧ startsWithB (str "privStore") c then
        some [str "user/" ++ n ++ str "/privStore", str "user/" ++ n]
      else none
  | _ => none

/-- Pattern `^(user/[^/]+)/store`. -/
def matchUserStore (path : Bytes) : Option (List Bytes) :=
  match splitOnByte 47 path with
  | u :: n :: c :: _ =>
      if u = str "user" ∧ n ≠ [] ∧ startsWithB (str "store") c then
        some [str "user/" ++ n ++ str "/store", str "user/" ++ n]
      else none
  | _ => none

/-- Pattern `^(user/[^/]+)/login/[^/]+/auth$` (permission path `loginAuth`). -/
def matchLoginAuthPerm (path : Bytes) : Option (List Bytes) :=
  match splitOnByte 47 path with
  | [u, n, l, m, a] =>
      if u = str "user" ∧ n ≠ [] ∧ l = str "login" ∧ m ≠ [] ∧ a = str "auth" then
        some [path, str "user/" ++ n]
      else none
  | _ => none

/-- Pattern `^(user/[^/]+)/domain/[^/]+/auth$` (permission path `domainAuth`). -/
def matchDomainAuthPerm (path : Bytes) : Option (List Bytes) :=
  match splitOnByte 47 path with
  | [u, n, l, m, a] =>
      if u = str "user" ∧ n ≠ [] ∧ l = str "domain" ∧ m ≠ [] ∧ a = str "auth" then
        some [path, str "user/" ++ n]
      else none
  | _ => none

/-- Pattern `^(user/[^/]+)/domain/[^/]+/privStore`. -/
def matchDomainPrivStore (path : Bytes) : Option (List Bytes) :=
  match splitOnByte 47 path with
  | u :: n :: l :: m :: c :: _ =>
      if u = str "user" ∧ n ≠ [] ∧ l = str "domain" ∧ m ≠ [] ∧
          startsWithB (str "privStore") c then
        some [str "user/" ++ n ++ str "/domain/" ++ m ++ str "/privStore", str "user/" ++ n]
      else none
  | _ => none

/-- Pattern `^(user/[^/]+)/domain/[^/]+/store`. -/
def matchDomainStore (path : Bytes) : Option (List Bytes) :=
  match splitOnByte 47 path with
  | u :: n :: l :: m :: c :: _ =>
      if u = str "user" ∧ n ≠ [] ∧ l = str "domain" ∧ m ≠ [] ∧
          startsWithB (str "store") c then
        some [str "user/" ++ n ++ str "/domain/" ++ m ++ str "/store", str "user/" ++ n]
      else none
  | _ => none

/-- Pattern `^(user/[^/]+)/domain/[^/]+/loc`. -/
def matchDomainLoc (path : Bytes) : Option (List Bytes) :=
  match splitOnByte 47 path with
  | u :: n :: l :: m :: c :: _ =>
      if u = str "user" ∧ n ≠ [] ∧ l = str "domain" ∧ m ≠ [] ∧
          startsWithB (str "loc") c then
        some [str "user/" ++ n ++ str "/domain/" ++ m ++ str "/loc", str "user/" ++ n]
      else none
  | _ => none

/-- Pattern `^config/rootUser$` (`rootUserTypeConfig.PathPat`, no groups). -/
def matchRootType (path : Bytes) : Option (List Bytes) :=
  if path = str "config/rootUser" then some [path] else none

/-- Pattern `^user/([^/]+)$` (`userUserTypeConfig.PathPat`). -/
def matchUserType (path : Bytes) : Option (List Bytes) :=
  match splitOnByte 47 path with
  | [u, n] => if u = str "user" ∧ n ≠ [] then some [path, n] else none
  | _ => none

/-- Pattern `^(user/[^/]+)/login/([^/]+)$` (`loginUserTypeConfig.PathPat`). -/
def matchLoginType (path : Bytes) : Option (List Bytes) :=
  match splitOnByte 47 path with
  | [u, n, l, m] =>
      if u = str "user" ∧ n ≠ [] ∧ l = str "login" ∧ m ≠ [] then
        some [path, str "user/" ++ n, m]
      else none
  | _ => none

/-- Pattern `^(user/[^/]+)/domain/([^/]+)$` (`domainUserTypeConfig.PathPat`). -/
def matchDomainType (path : Bytes) : Option (List Bytes) :=
  match splitOnByte 47 path with
  | [u, n, l, m] =>
      if u = str "user" ∧ n ≠ [] ∧ l = str "domain" ∧ m ≠ [] then
        some [path, str "user/" ++ n, m]
      else none
  | _ => none

/-! ## Account model (`app` package account code)

`userTypeConfig` constants become the `UType` enumeration; the regex,
parent-group and name-group data of each config live in the matchers
above and in `MatchFromPath` below. -/
inductive UType where
  | root
  | user
  | login
  | domain
deriving DecidableEq

/-- Model of `TypeName` of each `userTypeConfig`. -/
def UType.typeName : UType → Bytes
  | .root => str "root"
  | .user => str "user"
  | .login => str "login"
  | .domain => str "domain"

/-- The scalar fields of `loginEntry` (everything but the parent link). -/
structure LoginData where
  utype : UType
  name : Bytes
  pubkey : Bytes
  parentSign : Bytes
  attrs : List (Bytes × BVal)
  created : Int
  expires : Int

/-- Model of `loginEntry`: scalar fields plus the `Parent *loginEntry` link. -/
inductive LoginEntry where
  | mk (data : LoginData) (parent : Option LoginEntry)

def LoginEntry.data : LoginEntry → LoginData
  | .mk d _ => d

def LoginEntry.parent : LoginEntry → Option LoginEntry
  | .mk _ p => p

def LoginEntry.withData (l : LoginEntry) (f : LoginData → LoginData) : LoginEntry :=
  match l with
  | .mk d p => .mk (f d) p

def LoginEntry.setParent (l : LoginEntry) (p : Option LoginEntry) : LoginEntry :=
  match l with
  | .mk d _ => .mk d p

/-- Model of `loginEntry.path()`. -/
def LoginEntry.path : LoginEntry → Bytes
  | .mk d p =>
      match d.utype with
      | .root => str "config/rootUser"
      | .user => if 47 ∈ d.name then [] else str "user/" ++ d.name
      | .login =>
          match p with
          | none => []
          | some par =>
              if par.data.utype ≠ .user then [] else par.path ++ str "/login/" ++ d.name
      | .domain =>
          match p with
          | none => []
          | some par =>
              if par.data.utype ≠ .user then [] else par.path ++ str "/domain/" ++ d.name

/-- A fresh `&loginEntry{Type: typ}` with a name, as `MatchFromPath` builds it. -/
def freshLogin (t : UType) (name : Bytes) : LoginEntry :=
  .mk ⟨t, name, [], [], [], 0, 0⟩ none

/-- Model of `domainUserTypes.MatchFromPath`: try each registered account kind's
pattern in declaration order; the first match yields the account (type
and name only) and the parent path (empty for root/user). -/
def MatchFromPath (path : Bytes) : Option (LoginEntry × Bytes) :=
  match matchRootType path with
  | some _ => some (freshLogin .root [], [])
  | none =>
    match matchUserType path with
    | some m => some (freshLogin .user (m.getD 1 []), [])
    | none =>
      match matchLoginType path with
      | some m => some (freshLogin .login (m.getD 2 []), m.getD 1 [])
      | none =>
        match matchDomainType path with
        | some m => some (freshLogin .domain (m.getD 2 []), m.getD 1 [])
        | none => none

/-- Model of `NumberToInt64` (`badgertype.go`), on the numeric dynamic types a
decoded value can carry (`uint64` converts with 64-bit wrap-around). -/
def NumberToInt64 : BVal → Option Int
  | .u64 v => some (if v < 2 ^ 63 then (v : Int) else (v : Int) - 2 ^ 64)
  | .i64 v => some v
  | .i32 v => some v
  | _ => none

/-- Loop body of `decodeAccountData`: fold the record fields in order,
stopping at the first error (`some ()` in the second component) with the
updates made so far. -/
def decodeAccountFields (login : LoginEntry) (fromUser : Bool) :
    List (Bytes × BVal) → LoginEntry × Option Unit
  | [] => (login, none)
  | (key, val) :: rest =>
      if key = str "pubKey" then
        match val with
        | .bytes pk => decodeAccountFields (login.withData fun d => { d with pubkey := pk }) fromUser rest
        | .str sv =>
            match b64urlDecode sv with
            | .ok pk => decodeAccountFields (login.withData fun d => { d with pubkey := pk }) fromUser rest
            | .error _ => (login, some ())
        | _ => (login, some ())  -- "Found unexpected non-string … pubKey"
      else if key = str "sign" then
        match val with
        | .bytes sg => decodeAccountFields (login.withData fun d => { d with parentSign := sg }) fromUser rest
        | .str sv =>
            match b64urlDecode sv with
            | .ok sg => decodeAccountFields (login.withData fun d => { d with parentSign := sg }) fromUser rest
            | .error _ => (login, some ())
        | _ => (login, some ())  -- "Found unexpected non-string … sign"
      else if key = str "created" then
        if fromUser then decodeAccountFields login fromUser rest
        else
          match NumberToInt64 val with
          | some c => decodeAccountFields (login.withData fun d => { d with created := c }) fromUser rest
          | none => (login, some ())
      else if key = str "expires" then
        match NumberToInt64 val with
        | some e => decodeAccountFields (login.withData fun d => { d with expires := e }) fromUser rest
        | none => (login, some ())
      else
        decodeAccountFields (login.withData fun d => { d with attrs := d.attrs ++ [(key, val)] })
          fromUser rest

/-- Model of `loginEntry.decodeAccountData` (`app` package revision, with
`fromUser`): reset `Pubkey`, `ParentSign` and `Attrs`, then fold the
record fields. -/
def decodeAccountData (login : LoginEntry) (acctData : List (Bytes × BVal)) (fromUser : Bool) :
    LoginEntry × Option Unit :=
  decodeAccountFields
    (login.withData fun d => { d with pubkey := [], parentSign := [], attrs := [] })
    fromUser acctData

/-- The map that `assembleAccountData` builds into its local `result`
variable (`pubKey`, `sign`, `created`, `expires` when non-empty/positive,
then the extra attributes). -/
def assembleAccountDataBuilt (login : LoginEntry) : List (Bytes × BVal) :=
  (if 0 < login.data.pubkey.length then [(str "pubKey", BVal.bytes login.data.pubkey)] else []) ++
  (if 0 < login.data.parentSign.length then [(str "sign", BVal.bytes login.data.parentSign)] else []) ++
  (if 0 < login.data.created then [(str "created", BVal.i64 login.data.created)] else []) ++
  (if 0 < login.data.expires then [(str "expires", BVal.i64 login.data.expires)] else []) ++
  login.data.attrs

/-- Model of `loginEntry.assembleAccountData`: the source builds the map of
`assembleAccountDataBuilt` into `result` — and then executes `return nil`,
so the function's value is always nil. -/
def assembleAccountData (login : LoginEntry) : Option (List (Bytes × BVal)) :=
  let result := assembleAccountDataBuilt login
  none

/-- The map that `assembleQueryData` builds into its local `result`
variable (binary fields as base64url strings). -/
def assembleQueryDataBuilt (login : LoginEntry) : List (Bytes × BVal) :=
  (if 0 < login.data.pubkey.length then
    [(str "pubKey", BVal.str (b64urlEncode login.data.pubkey))] else []) ++
  (if 0 < login.data.parentSign.length then
    [(str "sign", BVal.str (b64urlEncode login.data.parentSign))] else []) ++
  (if 0 < login.data.created then [(str "created", BVal.i64 login.data.created)] else []) ++
  (if 0 < login.data.expires then [(str "expires", BVal.i64 login.data.expires)] else []) ++
  login.data.attrs

/-- Model of `loginEntry.assembleQueryData`: builds the map of
`assembleQueryDataBuilt` into `result` — and then executes `return nil`. -/
def assembleQueryData (login : LoginEntry) : Option (List (Bytes × BVal)) :=
  let result := assembleQueryDataBuilt login
  none

/-- Model of `loginEntry.queryAccountData`: load `<path>/auth`, require a map,
decode it (`fromUser = false`). -/
def queryAccountData (store : Store) (login : LoginEntry) (path : Bytes) :
    Except Unit LoginEntry :=
  match storeGet store (path ++ str "/auth") with
  | none => .error ()  -- "Missing key path …"
  | some (.map acctData) =>
      match decodeAccountData login acctData false with
      | (l, none) => .ok l
      | (_, some _) => .error ()
  | some _ => .error ()  -- "Unexpected account object …"

/-! ## Symlink maintenance (`app/app.go`, symlink section) -/
/-- Model of `pubkeySymLinkPaths`: source pattern and `DestPrefix` of each pubkey
symlink map entry ("keyMap/" for all four). -/
def pubkeySymLinkPaths : List ((Bytes → Option (List Bytes)) × Bytes) :=
  [(matchRootAuthLink, str "keyMap/"),
   (matchUserAuthLink, str "keyMap/"),
   (matchLoginAuthLink, str "keyMap/"),
   (matchDomainAuthLink, str "keyMap/")]

/-- Model of `symLinkPaths`: pattern, `SourceAttr` and `DestPrefix` of each
attribute symlink map entry. -/
def symLinkPaths : List ((Bytes → Option (List Bytes)) × Bytes × Bytes) :=
  [(matchUserEmail, str "hash", str "users/email/")]

/-- Model of `handlePubkeySymlinkChange`: compare old and new `pubKey` bytes of the
auth record at `srcPath`, drop the old reverse-index entry if it still
points here, and install the new one — failing (second component
`some ()`) if an entry already exists at the destination. -/
def handlePubkeySymlinkChange (store : Store) (srcPath linkPath destPfx : Bytes)
    (value : Option BVal) : Store × Option Unit :=
  let oldPubKey : Bytes :=
    match storeGet store srcPath with
    | some (.map oldAcctData) =>
        match storeGet oldAcctData (str "pubKey") with
        | some (.bytes pk) => pk
        | _ => []
    | _ => []
  let newPubKey : Bytes :=
    match value with
    | some (.map newAcctData) =>
        match storeGet newAcctData (str "pubKey") with
        | some (.bytes pk) => pk
        | _ => []
    | _ => []
  if oldPubKey ≠ newPubKey then
    let store1 :=
      if 0 < oldPubKey.length then
        let destPath := destPfx ++ b64urlEncode oldPubKey
        match storeGet store destPath with
        | some (.str oldLinkPath) =>
            if oldLinkPath = linkPath then storeDel store destPath else store
        | _ => store
      else store
    if 0 < newPubKey.length then
      let destPath := destPfx ++ b64urlEncode newPubKey
      match storeGet store1 destPath with
      | some _ => (store1, some ())  -- "there is already a symlink declared at …"
      | none => (storeSet store1 destPath (.str linkPath), none)
    else (store1, none)
  else (store, none)

/-- Model of `handleSymlinkChange`: the attribute-index analogue, keyed off a
string attribute of the source map. -/
def handleSymlinkChange (store : Store) (srcPath linkPath sourceAttr destPfx : Bytes)
    (value : Option BVal) : Store × Option Unit :=
  let oldValue : Bytes :=
    match storeGet store srcPath with
    | some (.map oldData) =>
        match storeGet oldData sourceAttr with
        | some (.str sv) => sv
        | _ => []
    | _ => []
  let newValue : Bytes :=
    match value with
    | some (.map newData) =>
        match storeGet newData sourceAttr with
        | some (.str sv) => sv
        | _ => []
    | _ => []
  if oldValue ≠ newValue then
    let store1 :=
      if 0 < oldValue.length then
        let destPath := destPfx ++ oldValue
        match storeGet store destPath with
        | some (.str oldLinkPath) =>
            if oldLinkPath = linkPath then storeDel store destPath else store
        | _ => store
      else store
    if 0 < newValue.length then
      let destPath := destPfx ++ newValue
      match storeGet store1 destPath with
      | some _ => (store1, some ())  -- "there is already a symlink declared at …"
      | none => (storeSet store1 destPath (.str linkPath), none)
    else (store1, none)
  else (store, none)

/-- The pubkey-table pass of `setKey`: for every matching pattern, run the
index maintainer and keep its store effects — its returned error is
discarded (the source never assigns the call's result). -/
def setKeyPubkeyPass (path : Bytes) (value : Option BVal) :
    List ((Bytes → Option (List Bytes)) × Bytes) → Store → Store
  | [], store => store
  | (pat, destPfx) :: rest, store =>
      match pat path with
      | some ms =>
          setKeyPubkeyPass path value rest
            (handlePubkeySymlinkChange store path (ms.getD 1 []) destPfx value).1
      | none => setKeyPubkeyPass path value rest store

/-- The attribute-table pass of `setKey` (result equally discarded). -/
def setKeyAttrPass (path : Bytes) (value : Option BVal) :
    List ((Bytes → Option (List Bytes)) × Bytes × Bytes) → Store → Store
  | [], store => store
  | (pat, sourceAttr, destPfx) :: rest, store =>
      match pat path with
      | some ms =>
          setKeyAttrPass path value rest
            (handleSymlinkChange store path (ms.getD 1 []) sourceAttr destPfx value).1
      | none => setKeyAttrPass path value rest store

/-- Model of `setKey` (`app/app.go`): run both symlink passes (errors discarded),
then delete the key for a nil value or encode-and-write it. -/
def setKey (store : Store) (path : Bytes) (value : Option BVal) : Except Unit Store :=
  let store1 := setKeyPubkeyPass path value pubkeySymLinkPaths store
  let store2 := setKeyAttrPass path value symLinkPaths store1
  match value with
  | none => .ok (storeDel store2 path)
  | some v => .ok (storeSet store2 path v)

/-! ## Symlink resolution (`resolveSymlinkPath`) -/
/-- Model of `resolveSymlinkSeg`: read the stored string at `path`; a missing key
resolves to the empty string, a non-string value is an error. -/
def resolveSymlinkSeg (store : Store) (path : Bytes) : Except Unit Bytes :=
  match storeGet store path with
  | none => .ok []
  | some (.str s) => .ok s
  | some _ => .error ()  -- "symlink destination … has unexpected type"

inductive ScanRes where
  | segs (segs : List Bytes)
  | retNone
  | retErr

/-- One inner `for` loop of `resolveSymlinkPath` over a table of
`DestPrefix` values.  The guard is the source's
`len(typ.DestPrefix) > len(firstSeg) && typ.DestPrefix == typ.DestPrefix[:len(firstSeg)]`. -/
def symlinkScan (store : Store) (firstSeg : Bytes) :
    List Bytes → List Bytes → ScanRes
  | [], segs => .segs segs
  | destPfx :: rest, segs =>
      if firstSeg.length < destPfx.length ∧ destPfx = destPfx.take firstSeg.length then
        match resolveSymlinkSeg store firstSeg with
        | .error _ => .retErr
        | .ok symDest =>
            if symDest = [] then .retNone  -- "key doesn't resolve to anything"
            else
              symlinkScan store firstSeg rest
                (splitOnByte 58 (symDest ++ [47] ++ segs.getD 1 []) ++ segs.drop 2)
      else symlinkScan store firstSeg rest segs

/-- The outer `for len(segments) > 1` loop of `resolveSymlinkPath`, with
fuel: `none` means the loop was still running when the fuel ran out. -/
def resolveLoop (store : Store) : Nat → List Bytes → Option (Except Unit Bytes)
  | 0, _ => none
  | fuel + 1, segs =>
      if 1 < segs.length then
        let firstSeg := segs.headD []
        match symlinkScan store firstSeg (pubkeySymLinkPaths.map (·.2)) segs with
        | .retErr => some (.error ())
        | .retNone => some (.ok [])
        | .segs s1 =>
            match symlinkScan store firstSeg (symLinkPaths.map (·.2.2)) s1 with
            | .retErr => some (.error ())
            | .retNone => some (.ok [])
            | .segs s2 => resolveLoop store fuel s2
      else some (.ok (segs.headD []))

/-- Model of `resolveSymlinkPath` (`app/app.go`). -/
def resolveSymlinkPath (store : Store) (fuel : Nat) (path : Bytes) :
    Option (Except Unit Bytes) :=
  resolveLoop store fuel (splitOnByte 58 path)

/-! ## Access control (`app/app-exec.go`) -/
structure PermPathEntry where
  pat : Bytes → Option (List Bytes)
  isAuth : Bool

/-- Model of `permPaths`: the named pattern table. -/
def permPaths : String → PermPathEntry
  | "all" => ⟨matchAll, false⟩
  | "userPrefix" => ⟨matchUserPfx, false⟩
  | "userAuth" => ⟨matchUserAuthPerm, true⟩
  | "userPrivStore" => ⟨matchUserPrivStore, false⟩
  | "userStore" => ⟨matchUserStore, false⟩
  | "loginAuth" => ⟨matchLoginAuthPerm, true⟩
  | "domainAuth" => ⟨matchDomainAuthPerm, true⟩
  | "domainPrivStore" => ⟨matchDomainPrivStore, false⟩
  | "domainStore" => ⟨matchDomainStore, false⟩
  | "domainLoc" => ⟨matchDomainLoc, false⟩
  | _ => ⟨fun _ => none, false⟩

structure PermissionMapEntry where
  pathPat : String
  userType : Option UType
  canWrite : Bool

/-- Model of `permissions`: the access-control rule table, in declaration order
(a `nil` user type marks anonymous-read rules). -/
def permissions : List PermissionMapEntry :=
  [⟨"all", some .root, true⟩,
   ⟨"userPrefix", some .user, false⟩,
   ⟨"userAuth", some .user, true⟩,
   ⟨"userPrivStore", some .user, true⟩,
   ⟨"userPrivStore", some .login, true⟩,
   ⟨"userStore", none, false⟩,
   ⟨"userStore", some .user, true⟩,
   ⟨"userStore", some .login, true⟩,
   ⟨"loginAuth", some .login, true⟩,
   ⟨"domainAuth", some .login, true⟩,
   ⟨"domainPrivStore", some .login, true⟩,
   ⟨"domainPrivStore", some .domain, true⟩,
   ⟨"domainStore", none, false⟩,
   ⟨"domainStore", some .login, true⟩,
   ⟨"domainStore", some .domain, true⟩,
   ⟨"domainLoc", none, false⟩,
   ⟨"domainLoc", some .login, true⟩,
   ⟨"domainLoc", some .domain, true⟩]

/-- The apex account for "self" matching: the parent if there is one,
the account itself otherwise. -/
def apexEntry (login : LoginEntry) : LoginEntry :=
  match login.parent with
  | some p => p
  | none => login

/-- The rule loop of `canAccess`, threading `isGranted`, `isAuthPath`
and `matchPrefix` (the source's `prefixCache` is pure memoisation of the
pattern matches and is dropped).  After the "matches with no qualifiers"
branch the loop body falls through to `matches[1]`, which panics
(`none`) when the pattern has no capture group. -/
def canAccessLoop (forWrite : Bool) (login : LoginEntry) (path : Bytes) :
    List PermissionMapEntry → Bool → Bool → Bytes → Option (Bool × Bool)
  | [], g, a, _ => some (g, a)
  | perm :: rest, g, a, mp =>
      if some login.data.utype ≠ perm.userType ∨ (forWrite ∧ ¬ perm.canWrite) then
        canAccessLoop forWrite login path rest g a mp
      else
        let permPath := permPaths perm.pathPat
        match permPath.pat path with
        | none => canAccessLoop forWrite login path rest g a mp
        | some ms =>
            let g1 := if ms.length ≤ 1 then true else g
            let a1 := if ms.length ≤ 1 ∧ permPath.isAuth then true else a
            let mp1 := if mp = [] then (apexEntry login).path else mp
            match ms.get? 1 with
            | none => none  -- matches[1]: index out of range
            | some m1 =>
                let g2 := if m1 = mp1 then true else g1
                let a2 := if m1 = mp1 ∧ permPath.isAuth then true else a1
                canAccessLoop forWrite login path rest g2 a2 mp1

/-- Model of `canAccess` (`app/app-exec.go`): `none` models a Go runtime panic. -/
def canAccess (forWrite : Bool) (login : LoginEntry) (path : Bytes) :
    Option (Bool × Bool) :=
  canAccessLoop forWrite login path permissions false false []

/-- Model of `verifySignature` (`app/app-exec.go`); `ed` is `ed25519.Verify`. -/
def verifySignature (ed : Bytes → Bytes → Bytes → Bool) (pubKey msg sig : Bytes) : Bool :=
  if pubKey.length ≠ 32 ∨ sig.length ≠ 64 then false
  else ed pubKey msg sig

/-! ## Authentication (`isAuth`, `app/app-exec.go`) -/
/-- Model of `isAuth`: resolve a public key to an account through the reverse
index, load and check the record, and verify the parent signature chain.
The source assigns `login.Parent = parentLogin` before hydrating
`parentLogin` through the shared pointer; the model attaches the
hydrated parent, which yields the same final value. -/
def isAuth (ed : Bytes → Bytes → Bytes → Bool) (store : Store) (pubKey : Bytes) :
    Except Unit (Option LoginEntry) :=
  let keyQuery := str "keymap/" ++ b64urlEncode pubKey
  match storeGet store keyQuery with
  | none => .ok none  -- no key found: anonymous
  | some gKeyPath =>
      match gKeyPath with
      | .str keyPath =>
          match MatchFromPath keyPath with
          | none => .error ()  -- "Unsupported key path …"
          | some (login0, parentPath) =>
              match queryAccountData store login0 keyPath with
              | .error _ => .error ()
              | .ok login1 =>
                  if login1.data.pubkey.length = 0 then .error ()
                  else if login1.data.pubkey ≠ pubKey then .error ()
                  else if parentPath ≠ [] then
                    if login1.data.parentSign.length = 0 then .error ()
                    else
                      match MatchFromPath parentPath with
                      | none => .error ()  -- "Unsupported parent key path …"
                      | some (parent0, _) =>
                          match queryAccountData store parent0 parentPath with
                          | .error _ => .error ()
                          | .ok parent1 =>
                              if parent1.data.pubkey.length = 0 then .error ()
                              else
                                let toSign :=
                                  login1.data.utype.typeName ++ str ":" ++ login1.data.pubkey
                                if ¬ verifySignature ed parent1.data.pubkey toSign
                                    login1.data.parentSign then
                                  .error ()
                                else .ok (some (login1.setParent (some parent1)))
                  else .ok (some login1)
      | _ => .error ()  -- "Unexpected key path …"

/-! ## Transaction unpacking (`unpackTx`, `app/app.go`) -/
/-- ABCI error codes (`app/app.go`); `ErrorNotFound` is referenced by the
executor but not defined under `src/` — modelled from the spec ("plus
not-found used by symlink resolution failures"), only its distinctness
matters here. -/
def ErrorOk : Nat := 0

def ErrorTxTooShort : Nat := 1

def ErrorTxBadSign : Nat := 2

def ErrorUnexpected : Nat := 3

def ErrorUnknownUser : Nat := 4

def ErrorUnauth : Nat := 5

def ErrorBadFormat : Nat := 6

def ErrorNotFound : Nat := 7

/-- Model of `unpackTx` (`app/app.go`).  `ed` is `ed25519.Verify`; `jsonDec` is the
`encoding/json` decoder (`Decode` on empty input fails with `io.EOF`).
In the all-zero (anonymous) branch the source never assigns `body`, so
the JSON decoder runs on the nil slice. -/
def unpackTx {J : Type} (ed : Bytes → Bytes → Bytes → Bool)
    (jsonDec : Bytes → Except Unit J) (tx : Bytes) : Except Nat (Bytes × Bytes × J) :=
  if tx.length < 96 then .error ErrorTxTooShort  -- "Tx too short"
  else if tx.take 96 = List.replicate 96 0 then
    -- anonymous: Pkey, Sign and body all keep their zero values
    match jsonDec [] with
    | .error _ => .error ErrorBadFormat
    | .ok m => .ok ([], [], m)
  else
    let pkey := tx.take 32
    let sign := (tx.drop 32).take 64
    let body := tx.drop 96
    if ¬ ed pkey body sign then .error ErrorTxBadSign  -- "Transaction signature invalid"
    else
      match jsonDec body with
      | .error _ => .error ErrorBadFormat
      | .ok m => .ok (pkey, sign, m)

/-! ## Transaction execution (`executeTx`, `app/app-exec.go`) -/
/-- Result of `executeTx`: the loop can fail to terminate (symlink
resolution on a `:` path), panic (`canAccess`), or return a code together
with the block transaction as mutated so far — the source never discards
or rolls back `app.currentBatch` on failure. -/
inductive ExecRes where
  | diverges
  | panics
  | ret (code : Nat) (batch : Store)

/-- The auth-path rewrite of `executeTx` (lines 250–295): load and decode
the existing record (decode errors ignored), clear the extras, default
`Created`, decode the incoming value as user-supplied, re-verify a parent
signature if a parent is attached (`MatchFromPath` never attaches one, so
that branch is dead in this revision), and re-assemble the value through
`assembleAccountData` — which always returns nil. -/
def authPathRewrite (ed : Bytes → Bytes → Bytes → Bool) (lastBlockHeight : Int)
    (batch : Store) (key : Bytes) (kvValue : Option BVal) : Except Nat (Option BVal) :=
  match MatchFromPath key with
  | none => .error ErrorUnexpected  -- "…cannot resolve the token type?"
  | some (req0, _) =>
      let req1 :=
        match storeGet batch key with
        | some (.map acctData) => (decodeAccountData req0 acctData false).1
        | _ => req0
      let req2 := req1.withData fun d => { d with attrs := [] }
      let req3 :=
        if req2.data.created = 0 then
          req2.withData fun d => { d with created := lastBlockHeight + 1 }
        else req2
      match kvValue with
      | some (.map acctData) =>
          match decodeAccountData req3 acctData true with
          | (_, some _) => .error ErrorBadFormat
          | (req4, none) =>
              match req4.parent with
              | none => .ok ((assembleAccountData req4).map BVal.map)
              | some parentLogin0 =>
                  let parentPath := parentLogin0.path
                  match queryAccountData batch parentLogin0 parentPath with
                  | .error _ => .error ErrorBadFormat
                  | .ok parentLogin1 =>
                      if parentLogin1.data.pubkey.length = 0 then .error ErrorBadFormat
                      else
                        let toSign :=
                          req4.data.utype.typeName ++ str ":" ++ req4.data.pubkey
                        if ¬ verifySignature ed parentLogin1.data.pubkey toSign
                            req4.data.parentSign then
                          .error ErrorBadFormat
                        else .ok ((assembleAccountData req4).map BVal.map)
      | _ => .error ErrorBadFormat  -- "…the value is not a map"

/-- The anonymous-user special case of `executeTx` (lines 296–319): only a
map value at a `userAuth` path can register a new user; the decoded
entry's `Name` is never set by `decodeAccountData`, so the self-signed
check can never succeed in this revision. -/
def anonCreateUser (lastBlockHeight : Int) (batch : Store) (pkey key : Bytes)
    (valueAsMap : List (Bytes × BVal)) : Except Nat (Option BVal) :=
  match matchUserAuthPerm key with
  | none => .error ErrorUnknownUser  -- "Did not recognize key …"
  | some _ =>
      let req0 : LoginEntry := .mk ⟨.user, [], [], [], [], lastBlockHeight + 1, 0⟩ none
      match decodeAccountData req0 valueAsMap true with
      | (req1, none) =>
          if req1.data.name ≠ [] ∧ req1.data.pubkey = pkey then
            match storeGet batch key with
            | some _ => .error ErrorUnauth  -- "User … already exists"
            | none => .ok ((assembleAccountData req1).map BVal.map)
          else .error ErrorUnknownUser
      | (_, some _) => .error ErrorUnknownUser

/-- Model of `executeTx` (`app/app-exec.go`): apply the transaction's entries in
order against the block transaction.  On any entry failure it returns the
error code — leaving every write already made in `batch` in place. -/
def executeTx (ed : Bytes → Bytes → Bytes → Bool) (fuel : Nat) (lastBlockHeight : Int)
    (pkey : Bytes) (login : Option LoginEntry) (entries : List (Bytes × Option BVal))
    (batch : Store) : ExecRes :=
  match entries with
  | [] => .ret ErrorOk batch
  | (kvKey, kvValue) :: rest =>
      match resolveSymlinkPath batch fuel kvKey with
      | none => .diverges
      | some (.error _) => .ret ErrorUnexpected batch
      | some (.ok key) =>
          if key = [] then .ret ErrorNotFound batch  -- "Path … could not be resolved"
          else
            match login with
            | some l =>
                match canAccess true l key with
                | none => .panics
                | some (granted, isAuthPath) =>
                    if ¬ granted then .ret ErrorUnauth batch  -- "Not authorized to write to …"
                    else if isAuthPath then
                      match authPathRewrite ed lastBlockHeight batch key kvValue with
                      | .error code => .ret code batch
                      | .ok value1 =>
                          match setKey batch key value1 with
                          | .error _ => .ret ErrorUnexpected batch
                          | .ok batch1 =>
                              executeTx ed fuel lastBlockHeight pkey login rest batch1
                    else
                      match setKey batch key kvValue with
                      | .error _ => .ret ErrorUnexpected batch
                      | .ok batch1 => executeTx ed fuel lastBlockHeight pkey login rest batch1
            | none =>
                match kvValue with
                | some (.map valueAsMap) =>
                    match anonCreateUser lastBlockHeight batch pkey key valueAsMap with
                    | .error code => .ret code batch
                    | .ok value1 =>
                        match setKey batch key value1 with
                        | .error _ => .ret ErrorUnexpected batch
                        | .ok batch1 => executeTx ed fuel lastBlockHeight pkey login rest batch1
                | _ =>
                    -- a non-map value skips the special case entirely and
                    -- falls through to the unconditional setKey
                    match setKey batch key kvValue with
                    | .error _ => .ret ErrorUnexpected batch
                    | .ok batch1 => executeTx ed fuel lastBlockHeight pkey login rest batch1

/-- Model of `updateLastBlockHeight` + `Commit` (`app/app.go`): the block-state
record is written into the block transaction, and `currentBatch.Commit()`
makes the batch (which the model carries as a full snapshot) the new
committed store. -/
def commitStore (nextBlockHeight : Int) (batch : Store) : Store :=
  storeSet batch (str "mesh/blockState")
    (.map [(str "lastBlockHeight", .i64 nextBlockHeight)])

/-! ## Shared concrete fixtures -/
/-- A 32-byte public key. -/
def pk32 : Bytes := List.replicate 32 1

/-- An auth-record map carrying `pk32`. -/
def aliceAuthMap : BVal := .map [(str "pubKey", .bytes pk32)]

/-- A store in which `user/alice` owns `pk32`, with the reverse-index
entry the maintainer wrote for it. -/
def conflictStore : Store :=
  [(str "user/alice/auth", aliceAuthMap),
   (str "keyMap/" ++ b64urlEncode pk32, .str (str "user/alice"))]

/-- The `user` account entry for alice. -/
def aliceUser : LoginEntry := .mk ⟨.user, str "alice", pk32, [], [], 0, 0⟩ none

/-- The two store entries of a transaction where alice's first write
succeeds and the second write (into bob's space) is denied. -/
def c5entries : List (Bytes × Option BVal) :=
  [(str "user/alice/store/a", some (.str (str "v"))),
   (str "user/bob/store/x", some (.str (str "w")))]

/-- The encoding of a map whose payload holds two records with the same
key `"a"` (values 5 and then 6). -/
def dupMapBytes : Bytes := [7, 1, 97, 2, 2, 5, 1, 97, 2, 2, 6]

theorem length_natToLE (w v : Nat) : (natToLE w v).length = w := by
  induction w generalizing v with
  | zero => rfl
  | succ w ih => simp [natToLE, ih]

theorem leToNat_natToLE (w v : Nat) : leToNat (natToLE w v) = v % 256 ^ w := by
  induction w generalizing v with
  | zero => simp [natToLE, leToNat]; omega
  | succ w ih =>
      simp only [natToLE, leToNat, ih]
      rw [pow_succ', Nat.mod_mul]

theorem beToNat_lt (bs : Bytes) (h : ∀ b ∈ bs, b < 256) : beToNat bs < 256 ^ bs.length := by
  induction bs with
  | nil => simp [beToNat]
  | cons b rest ih =>
      have hb : b < 256 := h b (by simp)
      have hr : beToNat rest < 256 ^ rest.length := ih (fun x hx => h x (by simp [hx]))
      simp only [beToNat, List.length_cons, pow_succ']
      calc b * 256 ^ rest.length + beToNat rest
          < b * 256 ^ rest.length + 256 ^ rest.length := by omega
        _ = (b + 1) * 256 ^ rest.length := by ring
        _ ≤ 256 * 256 ^ rest.length := by
            have : b + 1 ≤ 256 := by omega
            exact Nat.mul_le_mul_right _ this

theorem beToNat_append (xs ys : Bytes) :
    beToNat (xs ++ ys) = beToNat xs * 256 ^ ys.length + beToNat ys := by
  induction xs with
  | nil => simp [beToNat]
  | cons b rest ih =>
      simp only [List.cons_append, beToNat, ih, List.append_eq, List.length_append, pow_add]
      ring

theorem beToNat_reverse (bs : Bytes) : beToNat bs.reverse = leToNat bs := by
  induction bs with
  | nil => rfl
  | cons b rest ih =>
      simp only [List.reverse_cons, leToNat, beToNat_append, ih, beToNat]
      simp
      ring

theorem two_pow_8mul (n : Nat) : (2 : Int) ^ (8 * n) = 256 ^ n := by
  rw [pow_mul]; norm_num

theorem sextBE_cons_zero (xs : Bytes) (h : xs.headD 0 < 128) :
    sextBE (0 :: xs) = sextBE xs := by
  have h0 : ¬ (128 ≤ (0 : Nat)) := by omega
  simp only [sextBE, List.headD_cons, h0, if_false, beToNat, if_neg (by omega : ¬ 128 ≤ xs.headD 0)]
  push_cast; ring

theorem sextBE_cons_ff (xs : Bytes) (h : 128 ≤ xs.headD 0) :
    sextBE (255 :: xs) = sextBE xs := by
  simp only [sextBE, List.headD_cons, if_pos (by omega : (128 : Nat) ≤ 255), if_pos h, beToNat,
    List.length_cons, two_pow_8mul]
  push_cast [pow_succ']
  ring

/-- One more sign-extension byte on the big-endian side never changes the value. -/
theorem sextBE_ext (xs : Bytes) (b : Nat)
    (hb : b = if 128 ≤ xs.headD 0 then 255 else 0) : sextBE (b :: xs) = sextBE xs := by
  by_cases h : 128 ≤ xs.headD 0
  · rw [hb, if_pos h]; exact sextBE_cons_ff xs h
  · rw [hb, if_neg h]; exact sextBE_cons_zero xs (by omega)

theorem trimIntBE_sext (bs : Bytes) : sextBE (trimIntBE bs) = sextBE bs := by
  induction bs with
  | nil => rfl
  | cons b tail ih =>
      match tail with
      | [] => rfl
      | b2 :: rest =>
          rw [trimIntBE]
          by_cases hc : (b = 0 ∧ b2 < 128) ∨ (b = 255 ∧ 128 ≤ b2)
          · rw [if_pos hc, ih]
            rcases hc with ⟨h0, hlt⟩ | ⟨hff, hge⟩
            · subst h0
              exact (sextBE_cons_zero (b2 :: rest) (by simpa [List.headD] using hlt)).symm
            · subst hff
              exact (sextBE_cons_ff (b2 :: rest) (by simpa [List.headD] using hge)).symm
          · rw [if_neg hc]

theorem trimIntBE_ne_nil (bs : Bytes) (h : bs ≠ []) : trimIntBE bs ≠ [] := by
  induction bs with
  | nil => exact absurd rfl h
  | cons b tail ih =>
      match tail with
      | [] => simp [trimIntBE]
      | b2 :: rest =>
          rw [trimIntBE]
          by_cases hc : (b = 0 ∧ b2 < 128) ∨ (b = 255 ∧ 128 ≤ b2)
          · rw [if_pos hc]; exact ih (by simp)
          · rw [if_neg hc]; simp

theorem trimIntBE_length_le (bs : Bytes) : (trimIntBE bs).length ≤ bs.length := by
  induction bs with
  | nil => simp [trimIntBE]
  | cons b tail ih =>
      match tail with
      | [] => simp [trimIntBE]
      | b2 :: rest =>
          rw [trimIntBE]
          by_cases hc : (b = 0 ∧ b2 < 128) ∨ (b = 255 ∧ 128 ≤ b2)
          · rw [if_pos hc]; exact le_trans ih (by simp)
          · rw [if_neg hc]

theorem trimIntBE_mem (bs : Bytes) (b : Nat) (h : b ∈ trimIntBE bs) : b ∈ bs := by
  induction bs with
  | nil => simp [trimIntBE] at h
  | cons c tail ih =>
      match tail with
      | [] => simpa [trimIntBE] using h
      | b2 :: rest =>
          rw [trimIntBE] at h
          by_cases hc : (c = 0 ∧ b2 < 128) ∨ (c = 255 ∧ 128 ≤ b2)
          · rw [if_pos hc] at h; exact List.mem_cons_of_mem _ (ih h)
          · rwa [if_neg hc] at h

/-- The trim loop stops either at a single byte or at a first byte that is
not pure sign extension of the second. -/
theorem trimIntBE_stop (bs : Bytes) (h : bs ≠ []) :
    (trimIntBE bs).length = 1 ∨
      ∃ c c2 rest, trimIntBE bs = c :: c2 :: rest ∧
        ¬ ((c = 0 ∧ c2 < 128) ∨ (c = 255 ∧ 128 ≤ c2)) := by
  induction bs with
  | nil => exact absurd rfl h
  | cons b tail ih =>
      match tail with
      | [] => left; rfl
      | b2 :: rest =>
          rw [trimIntBE]
          by_cases hc : (b = 0 ∧ b2 < 128) ∨ (b = 255 ∧ 128 ≤ b2)
          · rw [if_pos hc]; exact ih (by simp)
          · rw [if_neg hc]; right; exact ⟨b, b2, rest, rfl, hc⟩

theorem natToLE_mem_lt (w v : Nat) : ∀ b ∈ natToLE w v, b < 256 := by
  induction w generalizing v with
  | zero => intro b hb; simp [natToLE] at hb
  | succ w ih =>
      intro b hb
      simp only [natToLE, List.mem_cons] at hb
      rcases hb with h | h
      · omega
      · exact ih _ b h

theorem natToLE_reverse_headD (w v : Nat) :
    ((natToLE (w + 1) v).reverse).headD 0 = v / 256 ^ w % 256 := by
  induction w generalizing v with
  | zero => simp [natToLE]
  | succ w ih =>
      rw [natToLE, List.reverse_cons]
      have hne : (natToLE (w + 1) (v / 256)).reverse ≠ [] := by
        intro hcon
        rw [List.reverse_eq_nil_iff] at hcon
        have hl := length_natToLE (w + 1) (v / 256)
        rw [hcon] at hl
        simp at hl
      cases h : (natToLE (w + 1) (v / 256)).reverse with
      | nil => exact absurd h hne
      | cons a as =>
          have := ih (v / 256)
          rw [h] at this
          simp only [List.headD_cons] at this
          simp only [List.cons_append, List.headD_cons, this, Nat.div_div_eq_div_mul]
          rw [pow_succ']

/-- Value of the full 8-byte little-endian buffer of `toBadgerTypeInt`:
two's-complement interpretation recovers any signed 64-bit value. -/
theorem sextLE_natToLE_8 (x : Nat) (hx : x < 2 ^ 64) :
    sextLE (natToLE 8 x) = if x < 2 ^ 63 then (x : Int) else (x : Int) - 2 ^ 64 := by
  have hhead : ((natToLE 8 x).reverse).headD 0 = x / 2 ^ 56 % 256 := by
    have := natToLE_reverse_headD 7 x
    norm_num at this ⊢
    exact this
  have hval : beToNat (natToLE 8 x).reverse = x := by
    rw [beToNat_reverse, leToNat_natToLE]
    exact Nat.mod_eq_of_lt (by norm_num at hx ⊢; omega)
  have hlen : ((natToLE 8 x).reverse).length = 8 := by simp [length_natToLE]
  rw [sextLE, sextBE, hhead, hval, hlen]
  by_cases h : x < 2 ^ 63
  · rw [if_neg (by norm_num at h ⊢; omega), if_pos h]
  · rw [if_pos (by norm_num at h ⊢; omega), if_neg h]

theorem sextBE_toNat_mod (v : Int) (h1 : -2 ^ 63 ≤ v) (h2 : v < 2 ^ 63) :
    sextLE (natToLE 8 ((v % 2 ^ 64).toNat)) = v := by
  have hmod : (0 : Int) ≤ v % 2 ^ 64 := Int.emod_nonneg v (by norm_num)
  have hlt : v % 2 ^ 64 < 2 ^ 64 := Int.emod_lt_of_pos v (by norm_num)
  rw [sextLE_natToLE_8 _ (by omega)]
  by_cases hv : 0 ≤ v
  · have : v % 2 ^ 64 = v := Int.emod_eq_of_lt hv (by omega)
    rw [if_pos (by omega), Int.toNat_of_nonneg hmod, this]
  · have : v % 2 ^ 64 = v + 2 ^ 64 := by
      rw [Int.add_mul_emod_self_left v (2 ^ 64) 1 |>.symm]
      ring_nf
      rw [Int.emod_eq_of_lt (by omega) (by omega)]
    rw [if_neg (by omega), Int.toNat_of_nonneg hmod, this]
    push_cast [this]
    omega

/-- After trimming, no strictly shorter sign-extended payload can represent
the same value: the stop condition of the trim loop certifies minimality. -/
theorem trimIntBE_minimal (bs : Bytes) (hb : ∀ b ∈ bs, b < 256) (h : bs ≠ [])
    (hlen2 : 2 ≤ (trimIntBE bs).length) :
    ¬ (-(2 : Int) ^ (8 * ((trimIntBE bs).length - 1) - 1) ≤ sextBE bs ∧
        sextBE bs < 2 ^ (8 * ((trimIntBE bs).length - 1) - 1)) := by
  rcases trimIntBE_stop bs h with h1 | ⟨c, c2, rest, heq, hcond⟩
  · omega
  have hv : sextBE (c :: c2 :: rest) = sextBE bs := by rw [← heq]; exact trimIntBE_sext bs
  have hc : c < 256 := hb c (trimIntBE_mem bs c (by rw [heq]; simp))
  have hc2 : c2 < 256 := hb c2 (trimIntBE_mem bs c2 (by rw [heq]; simp))
  have hrest : ∀ b ∈ rest, b < 256 := fun b hmem =>
    hb b (trimIntBE_mem bs b (by rw [heq]; simp [hmem]))
  set k := rest.length with hk
  have hlen : (trimIntBE bs).length = k + 2 := by rw [heq]; simp [hk]
  have hexp : 8 * ((trimIntBE bs).length - 1) - 1 = 8 * k + 7 := by omega
  rw [hexp, ← hv]
  have hR : beToNat rest < 256 ^ k := beToNat_lt rest hrest
  have hRpos : 0 ≤ beToNat rest := Nat.zero_le _
  -- abbreviations over ℤ
  have hPpos : (0 : Int) < 256 ^ k := by positivity
  have hsplit : (2 : Int) ^ (8 * k + 7) = 128 * 256 ^ k := by
    rw [pow_add, two_pow_8mul]; norm_num; ring
  rw [hsplit]
  have hBE : (beToNat (c :: c2 :: rest) : Int) =
      (c : Int) * (256 ^ k * 256) + (c2 : Int) * 256 ^ k + (beToNat rest : Int) := by
    simp only [beToNat, List.length_cons, ← hk]
    push_cast [pow_succ]
    ring
  have hRi : (beToNat rest : Int) < 256 ^ k := by exact_mod_cast hR
  have hRi0 : (0 : Int) ≤ (beToNat rest : Int) := by positivity
  by_cases hneg : 128 ≤ c
  · -- leading byte has its sign bit set: the value is negative
    have hval : sextBE (c :: c2 :: rest) =
        (c : Int) * (256 ^ k * 256) + (c2 : Int) * 256 ^ k + (beToNat rest : Int)
          - 256 ^ k * 65536 := by
      rw [sextBE, if_pos (by simpa using hneg), hBE]
      have : (2 : Int) ^ (8 * (c :: c2 :: rest).length) = 256 ^ k * 65536 := by
        simp only [List.length_cons, ← hk, two_pow_8mul]
        rw [pow_succ, pow_succ]
        ring
      rw [this]
    rw [hval]
    intro ⟨hlow, _⟩
    -- the stop condition rules out c = 255 with c2 ≥ 128
    have hcase : c ≤ 254 ∨ (c = 255 ∧ c2 < 128) := by
      by_cases h255 : c = 255
      · right; exact ⟨h255, by by_contra hge; exact hcond (Or.inr ⟨h255, by omega⟩)⟩
      · left; omega
    rcases hcase with hle | ⟨h255, hlt⟩
    · -- c ≤ 254 ⇒ value < -256^(k+1) < -128·256^k
      have h1 : (c : Int) * (256 ^ k * 256) ≤ 254 * (256 ^ k * 256) := by
        apply mul_le_mul_of_nonneg_right _ (by positivity)
        exact_mod_cast hle
      have h2 : (c2 : Int) * 256 ^ k ≤ 255 * 256 ^ k := by
        apply mul_le_mul_of_nonneg_right _ (by positivity)
        exact_mod_cast (by omega : c2 ≤ 255)
      nlinarith [hPpos, hRi]
    · -- c = 255 with c2 < 128 ⇒ value < -128·256^k
      subst h255
      have h2 : (c2 : Int) * 256 ^ k ≤ 127 * 256 ^ k := by
        apply mul_le_mul_of_nonneg_right _ (by positivity)
        exact_mod_cast (by omega : c2 ≤ 127)
      push_cast at hlow
      nlinarith [hPpos, hRi]
  · -- leading byte clear: the value is non-negative
    have hval : sextBE (c :: c2 :: rest) =
        (c : Int) * (256 ^ k * 256) + (c2 : Int) * 256 ^ k + (beToNat rest : Int) := by
      rw [sextBE, if_neg (by simpa using hneg), hBE]
    rw [hval]
    intro ⟨_, hhigh⟩
    -- the stop condition rules out c = 0 with c2 < 128
    have hcase : 1 ≤ c ∨ (c = 0 ∧ 128 ≤ c2) := by
      by_cases h0 : c = 0
      · right; exact ⟨h0, by by_contra hge; exact hcond (Or.inl ⟨h0, by omega⟩)⟩
      · left; omega
    rcases hcase with hge | ⟨h0, hge⟩
    · have h1 : (256 ^ k * 256 : Int) ≤ (c : Int) * (256 ^ k * 256) := by
        apply le_mul_of_one_le_left (by positivity)
        exact_mod_cast hge
      nlinarith [hPpos, hRi0]
    · subst h0
      have h2 : (128 : Int) * 256 ^ k ≤ (c2 : Int) * 256 ^ k := by
        apply mul_le_mul_of_nonneg_right _ (by positivity)
        exact_mod_cast hge
      nlinarith [hPpos, hRi0]

theorem length_vbytes (n v : Nat) : (vbytes n v).length = n := by
  induction n generalizing v with
  | zero => rfl
  | succ n ih => simp [vbytes, ih]

theorem readVarint_size_pos (src : Bytes) (n s : Nat) (h : readVarint src = .ok n s) :
    1 ≤ s := by
  match src with
  | [] => simp [readVarint] at h
  | c :: rest =>
      rw [readVarint] at h
      by_cases h1 : c < 128
      · rw [if_pos h1] at h
        cases h
        omega
      · rw [if_neg h1] at h
        by_cases h2 : c < 192
        · rw [if_pos h2] at h; cases h
        · rw [if_neg h2] at h
          simp only at h
          cases hc : readVarCont (if c < 224 then 1 else if c < 240 then 2 else if c < 248 then 3
              else if c < 252 then 4 else if c < 254 then 5 else 6)
              (if c < 224 then c % 32 else if c < 240 then c % 16 else if c < 248 then c % 8
              else if c < 252 then c % 4 else if c < 254 then c % 2 else 0) rest with
          | ok acc => rw [hc] at h; cases h; omega
          | bad => rw [hc] at h; cases h
          | panic => rw [hc] at h; cases h

theorem readVarCont_vbytes (n : Nat) (v : Nat) (acc : Nat) (rest : Bytes) :
    readVarCont n acc (vbytes n v ++ rest) = .ok (acc * 64 ^ n + v % 64 ^ n) := by
  induction n generalizing acc v with
  | zero => simp [vbytes, readVarCont]; omega
  | succ n ih =>
      have hdiv : (v / 64 ^ n % 64 + 128) / 64 = 2 := by omega
      have hmod : (v / 64 ^ n % 64 + 128) % 64 = v / 64 ^ n % 64 := by omega
      simp only [vbytes, List.cons_append, List.append_eq, readVarCont, hdiv, reduceIte, hmod, ih]
      congr 1
      have h2 : v % 64 ^ (n + 1) = v % 64 ^ n + 64 ^ n * (v / 64 ^ n % 64) := Nat.mod_pow_succ
      rw [h2]
      ring

theorem readVarint_writeVarint (n : Nat) (hn : n < 2 ^ 36) (rest : Bytes) :
    readVarint (writeVarint n ++ rest) = .ok n (writeVarint n).length := by
  rw [writeVarint]
  by_cases h1 : n < 0x80
  · rw [if_pos h1]
    simp only [List.cons_append, List.nil_append, readVarint, if_pos h1, List.length_cons,
      List.length_nil]
  · rw [if_neg h1]
    by_cases h2 : n < 0x800
    · rw [if_pos h2]
      have ha : ¬ (n / 64 % 32 + 192 < 128) := by omega
      have hb : ¬ (n / 64 % 32 + 192 < 192) := by omega
      have hc : n / 64 % 32 + 192 < 224 := by omega
      simp only [List.cons_append, readVarint, if_neg ha, if_neg hb, if_pos hc,
        readVarCont_vbytes, List.length_cons, length_vbytes]
      congr 1
      omega
    · rw [if_neg h2]
      by_cases h3 : n < 0x10000
      · rw [if_pos h3]
        have ha : ¬ (n / 4096 % 16 + 224 < 128) := by omega
        have hb : ¬ (n / 4096 % 16 + 224 < 192) := by omega
        have hc : ¬ (n / 4096 % 16 + 224 < 224) := by omega
        have hd : n / 4096 % 16 + 224 < 240 := by omega
        simp only [List.cons_append, readVarint, if_neg ha, if_neg hb, if_neg hc, if_pos hd,
          readVarCont_vbytes, List.length_cons, length_vbytes]
        congr 1
        · norm_num
          omega
      · rw [if_neg h3]
        by_cases h4 : n < 0x200000
        · rw [if_pos h4]
          have ha : ¬ (n / 262144 % 8 + 240 < 128) := by omega
          have hb : ¬ (n / 262144 % 8 + 240 < 192) := by omega
          have hc : ¬ (n / 262144 % 8 + 240 < 224) := by omega
          have hd : ¬ (n / 262144 % 8 + 240 < 240) := by omega
          have he : n / 262144 % 8 + 240 < 248 := by omega
          simp only [List.cons_append, readVarint, if_neg ha, if_neg hb, if_neg hc, if_neg hd,
            if_pos he, readVarCont_vbytes, List.length_cons, length_vbytes]
          congr 1
          · norm_num
            omega
        · rw [if_neg h4]
          by_cases h5 : n < 0x4000000
          · rw [if_pos h5]
            have ha : ¬ (n / 16777216 % 4 + 248 < 128) := by omega
            have hb : ¬ (n / 16777216 % 4 + 248 < 192) := by omega
            have hc : ¬ (n / 16777216 % 4 + 248 < 224) := by omega
            have hd : ¬ (n / 16777216 % 4 + 248 < 240) := by omega
            have he : ¬ (n / 16777216 % 4 + 248 < 248) := by omega
            have hf : n / 16777216 % 4 + 248 < 252 := by omega
            simp only [List.cons_append, readVarint, if_neg ha, if_neg hb, if_neg hc, if_neg hd,
              if_neg he, if_pos hf, readVarCont_vbytes, List.length_cons, length_vbytes]
            congr 1
            · norm_num
              omega
          · rw [if_neg h5]
            by_cases h6 : n < 0x80000000
            · rw [if_pos h6]
              have ha : ¬ (n / 1073741824 % 2 + 252 < 128) := by omega
              have hb : ¬ (n / 1073741824 % 2 + 252 < 192) := by omega
              have hc : ¬ (n / 1073741824 % 2 + 252 < 224) := by omega
              have hd : ¬ (n / 1073741824 % 2 + 252 < 240) := by omega
              have he : ¬ (n / 1073741824 % 2 + 252 < 248) := by omega
              have hf : ¬ (n / 1073741824 % 2 + 252 < 252) := by omega
              have hg : n / 1073741824 % 2 + 252 < 254 := by omega
              simp only [List.cons_append, readVarint, if_neg ha, if_neg hb, if_neg hc, if_neg hd,
                if_neg he, if_neg hf, if_pos hg, readVarCont_vbytes, List.length_cons,
                length_vbytes]
              congr 1
              · norm_num
                omega
            · rw [if_neg h6]
              simp only [List.cons_append, readVarint, List.length_cons, length_vbytes]
              norm_num [readVarCont_vbytes]
              omega

theorem sextBE_replicate_fill (k : Nat) (bs : Bytes)
    (fill : Nat) (hf : fill = if 128 ≤ bs.headD 0 then 255 else 0) :
    sextBE (List.replicate k fill ++ bs) = sextBE bs := by
  induction k with
  | zero => simp
  | succ k ih =>
      rw [List.replicate_succ, List.cons_append]
      have hext : sextBE (fill :: (List.replicate k fill ++ bs)) =
          sextBE (List.replicate k fill ++ bs) := by
        apply sextBE_ext
        cases k with
        | zero => simpa using hf
        | succ k =>
            simp only [List.replicate_succ, List.cons_append, List.headD_cons]
            by_cases h : 128 ≤ bs.headD 0
            · rw [hf, if_pos h]
              norm_num
            · rw [hf, if_neg h]
              norm_num
      rw [hext, ih]

theorem sextLE_signFillLE (w : Nat) (bs : Bytes) :
    sextLE (signFillLE w bs) = sextLE bs := by
  rw [sextLE, signFillLE, List.reverse_append, List.reverse_replicate, sextLE]
  apply sextBE_replicate_fill
  cases bs with
  | nil => simp
  | cons b rest =>
      have : (b :: rest).reverse.headD 0 = (b :: rest).getLastD 0 := by
        rw [List.headD_eq_head?, List.head?_reverse, List.getLastD_eq_getLast?]
      rw [this]

theorem trimUintBE_no_trim (b : Nat) (t : Bytes) (h : b ≠ 0) :
    trimUintBE (b :: t) = b :: t := by
  cases t with
  | nil => rfl
  | cons b2 rest => rw [trimUintBE, if_neg (by omega)]

/-- Folding Go map insertion over records with pairwise-distinct keys
reproduces the record list. -/
theorem mapPut_append (acc : List (Bytes × BVal)) (k : Bytes) (v : BVal)
    (h : ∀ kv ∈ acc, kv.1 ≠ k) : mapPut acc k v = acc ++ [(k, v)] := by
  induction acc with
  | nil => rfl
  | cons kv rest ih =>
      obtain ⟨k', v'⟩ := kv
      rw [mapPut, if_neg (h (k', v') (by simp)), ih (fun kv hm => h kv (by simp [hm]))]
      rfl

theorem foldl_mapPut (recs acc : List (Bytes × BVal))
    (hacc : ∀ kv ∈ acc, ∀ kv' ∈ recs, kv.1 ≠ kv'.1)
    (hrecs : recs.Pairwise (fun a b => a.1 ≠ b.1)) :
    recs.foldl (fun m kv => mapPut m kv.1 kv.2) acc = acc ++ recs := by
  induction recs generalizing acc with
  | nil => simp
  | cons kv rest ih =>
      obtain ⟨k, v⟩ := kv
      rw [List.foldl_cons]
      have h1 : mapPut acc k v = acc ++ [(k, v)] :=
        mapPut_append acc k v (fun kv hm => hacc kv hm (k, v) (by simp))
      rw [h1, ih (acc ++ [(k, v)]) ?_ (List.Pairwise.of_cons hrecs)]
      · simp
      · intro kv hm kv' hm'
        rcases List.mem_append.mp hm with h | h
        · exact hacc kv h kv' (by simp [hm'])
        · simp only [List.mem_singleton] at h
          subst h
          have := (List.pairwise_cons.mp hrecs).1 kv' hm'
          simpa using this

theorem toBadgerTypeInt_payload (v : Int) (h1 : -2 ^ 63 ≤ v) (h2 : v < 2 ^ 63) :
    ∃ p : Bytes, toBadgerTypeInt v = 2 :: p.reverse ∧ p ≠ [] ∧ p.length ≤ 8 ∧
      sextLE p.reverse = v ∧ (∀ b ∈ p, b < 256) ∧ p = trimIntBE (natToLE 8 ((v % 2 ^ 64).toNat)).reverse := by
  set x := (v % 2 ^ 64).toNat with hx
  set BE := (natToLE 8 x).reverse with hBE
  have hBEne : BE ≠ [] := by
    rw [hBE]
    intro hcon
    rw [List.reverse_eq_nil_iff] at hcon
    have := length_natToLE 8 x
    rw [hcon] at this
    simp at this
  refine ⟨trimIntBE BE, rfl, trimIntBE_ne_nil BE hBEne, ?_, ?_, ?_, rfl⟩
  · have := trimIntBE_length_le BE
    have hlen : BE.length = 8 := by rw [hBE]; simp [length_natToLE]
    omega
  · rw [sextLE, List.reverse_reverse, trimIntBE_sext]
    have : sextBE BE = sextLE (natToLE 8 x) := by rw [sextLE, hBE]
    rw [this, hx]
    exact sextBE_toNat_mod v h1 h2
  · intro b hb
    have := trimIntBE_mem BE b hb
    rw [hBE] at this
    exact natToLE_mem_lt 8 x b (List.mem_reverse.mp this)

theorem decode_toBadgerTypeInt (v : Int) (h1 : -2 ^ 63 ≤ v) (h2 : v < 2 ^ 63)
    (fuel : Nat) (hf : 1 ≤ fuel) :
    ∃ g, goDecodeF fuel (toBadgerTypeInt v) = .ok g ∧ toTVal g = .int v := by
  obtain ⟨p, henc, hne, hle, hval, _, _⟩ := toBadgerTypeInt_payload v h1 h2
  obtain ⟨f, rfl⟩ : ∃ f, fuel = f + 1 := ⟨fuel - 1, by omega⟩
  rw [henc]
  have hplen1 : 1 ≤ p.reverse.length := by
    simp only [List.length_reverse]
    cases p with
    | nil => exact absurd rfl hne
    | cons a t => simp
  have hplen8 : p.reverse.length ≤ 8 := by simp only [List.length_reverse]; omega
  rw [goDecodeF]
  norm_num
  rw [decodeScalarTag.eq_def]
  norm_num
  have hrl : (List.reverse p).length = p.length := by simp
  by_cases hbig : 5 ≤ p.length
  · rw [if_neg (by omega), if_pos (by omega)]
    exact ⟨.i64 v, by rw [sextLE_signFillLE, hval], rfl⟩
  · rw [if_neg (by omega), if_neg (by omega), if_pos (by omega)]
    exact ⟨.i32 v, by rw [sextLE_signFillLE, hval], rfl⟩

theorem decode_toBadgerTypeUint (x : Nat) (h1 : 2 ^ 63 ≤ x) (h2 : x < 2 ^ 64)
    (fuel : Nat) (hf : 1 ≤ fuel) :
    goDecodeF fuel (toBadgerTypeUint x) = .ok (.u64 x) ∧ (toBadgerTypeUint x).length = 10 := by
  have hlen : (natToLE 8 x).length = 8 := length_natToLE 8 x
  have hhead : ((natToLE 8 x).reverse).headD 0 = x / 256 ^ 7 % 256 := natToLE_reverse_headD 7 x
  have hge : 128 ≤ x / 256 ^ 7 % 256 := by
    have h256 : (256 : Nat) ^ 7 = 2 ^ 56 := by norm_num
    rw [h256]
    have : x / 2 ^ 56 < 256 := by omega
    rw [Nat.mod_eq_of_lt this]
    omega
  obtain ⟨b, t, hbt⟩ : ∃ b t, (natToLE 8 x).reverse = b :: t := by
    cases hc : (natToLE 8 x).reverse with
    | nil =>
        rw [List.reverse_eq_nil_iff] at hc
        rw [hc] at hlen
        simp at hlen
    | cons b t => exact ⟨b, t, rfl⟩
  have hb : b ≠ 0 := by
    rw [hbt] at hhead
    simp only [List.headD_cons] at hhead
    omega
  have htrim : trimUintBE (natToLE 8 x).reverse = (natToLE 8 x).reverse := by
    rw [hbt]
    exact trimUintBE_no_trim b t hb
  have henc : toBadgerTypeUint x = 2 :: (natToLE 8 x ++ [0]) := by
    rw [toBadgerTypeUint, htrim, List.reverse_reverse]
  obtain ⟨f, rfl⟩ : ∃ f, fuel = f + 1 := ⟨fuel - 1, by omega⟩
  constructor
  · rw [henc, goDecodeF]
    norm_num
    rw [decodeScalarTag.eq_def]
    have htake : (natToLE 8 x ++ [0]).take 8 = natToLE 8 x := by
      rw [← hlen]
      exact List.take_left _ _
    norm_num [hlen, htake, leToNat_natToLE]
    norm_num at h2
    omega
  · rw [henc]
    simp [hlen]

theorem toTValPairs_keys (gs : List (Bytes × BVal)) :
    (toTValPairs gs).map Prod.fst = gs.map Prod.fst := by
  induction gs with
  | nil => rfl
  | cons kv rest ih =>
      obtain ⟨k, v⟩ := kv
      simp [toTValPairs, ih]

theorem keysNodup_pairwise (kvs : List (Bytes × TVal)) (h : keysNodup kvs = true) :
    kvs.Pairwise (fun a b => a.1 ≠ b.1) := by
  induction kvs with
  | nil => exact List.Pairwise.nil
  | cons kv rest ih =>
      obtain ⟨k, v⟩ := kv
      rw [keysNodup, Bool.and_eq_true] at h
      refine List.pairwise_cons.mpr ⟨?_, ih h.2⟩
      intro kv' hm
      have := (List.all_eq_true.mp h.1) kv' hm
      simp only [decide_eq_true_eq] at this
      simp only [ne_eq]
      exact fun hk => this (hk ▸ rfl)

theorem writeVarint_length_pos (n : Nat) : 1 ≤ (writeVarint n).length := by
  rw [writeVarint]
  split
  · simp
  · split
    · simp
    · split
      · simp
      · split
        · simp
        · split
          · simp
          · split
            · simp
            · simp

theorem roundtrip_all (n : Nat) :
    (∀ v : TVal, sizeOf v ≤ n → RTV v) ∧
    (∀ vs : List TVal, sizeOf vs ≤ n → RTL vs) ∧
    (∀ kvs : List (Bytes × TVal), sizeOf kvs ≤ n → RTP kvs) := by
  induction n using Nat.strong_induction_on with
  | _ n ih =>
    refine ⟨?_, ?_, ?_⟩
    · -- single values
      intro v hsz hwf hnf
      match v with
      | .bool b =>
          refine ⟨[1, if b then 1 else 0], rfl, ?_⟩
          intro fuel hfuel
          obtain ⟨f, rfl⟩ : ∃ f, fuel = f + 1 := ⟨fuel - 1, by omega⟩
          refine ⟨.bool b, ?_, rfl⟩
          rw [goDecodeF]
          norm_num
          rw [decodeScalarTag.eq_def]
          norm_num
      | .int v =>
          rw [wfT, decide_eq_true_eq] at hwf
          by_cases hsigned : -2 ^ 63 ≤ v ∧ v < 2 ^ 63
          · refine ⟨toBadgerTypeInt v, by rw [specEncode, if_pos hsigned], ?_⟩
            intro fuel hfuel
            exact decode_toBadgerTypeInt v hsigned.1 hsigned.2 fuel (by omega)
          · have hr : 0 ≤ v ∧ v < 2 ^ 64 := by omega
            refine ⟨toBadgerTypeUint v.toNat,
              by rw [specEncode, if_neg hsigned, if_pos hr], ?_⟩
            intro fuel hfuel
            have h63 : 2 ^ 63 ≤ v.toNat := by omega
            have h64 : v.toNat < 2 ^ 64 := by omega
            obtain ⟨hdec, _⟩ := decode_toBadgerTypeUint v.toNat h63 h64 fuel (by omega)
            refine ⟨.u64 v.toNat, hdec, ?_⟩
            rw [toTVal]
            congr 1
            omega
      | .f32 bits =>
          rw [noF32] at hnf
          exact absurd hnf (by simp)
      | .f64 bits =>
          rw [wfT, decide_eq_true_eq] at hwf
          refine ⟨3 :: natToLE 8 bits, rfl, ?_⟩
          intro fuel hfuel
          obtain ⟨f, rfl⟩ : ∃ f, fuel = f + 1 := ⟨fuel - 1, by omega⟩
          refine ⟨.f64 bits, ?_, rfl⟩
          rw [goDecodeF]
          norm_num
          rw [decodeScalarTag.eq_def]
          norm_num [length_natToLE, leToNat_natToLE]
          norm_num at hwf
          omega
      | .str s =>
          refine ⟨4 :: s, rfl, ?_⟩
          intro fuel hfuel
          obtain ⟨f, rfl⟩ : ∃ f, fuel = f + 1 := ⟨fuel - 1, by omega⟩
          refine ⟨.str s, ?_, rfl⟩
          rw [goDecodeF]
          norm_num
          rw [decodeScalarTag.eq_def]
          norm_num
      | .bytes bs =>
          refine ⟨5 :: bs, rfl, ?_⟩
          intro fuel hfuel
          obtain ⟨f, rfl⟩ : ∃ f, fuel = f + 1 := ⟨fuel - 1, by omega⟩
          refine ⟨.bytes bs, ?_, rfl⟩
          rw [goDecodeF]
          norm_num
          rw [decodeScalarTag.eq_def]
          norm_num
      | .arr vs =>
          rw [wfT] at hwf
          rw [noF32] at hnf
          have hszl : sizeOf vs < n := by
            have : sizeOf (TVal.arr vs) = 1 + sizeOf vs := by simp
            omega
          obtain ⟨body, hbody, hloop⟩ := (ih (sizeOf vs) hszl).2.1 vs le_rfl hwf hnf
          refine ⟨6 :: body, by rw [specEncode, hbody], ?_⟩
          intro fuel hfuel
          obtain ⟨f, rfl⟩ : ∃ f, fuel = f + 1 := ⟨fuel - 1, by omega⟩
          obtain ⟨gs, hgs, hcast⟩ := hloop f (by simp at hfuel; omega)
          refine ⟨.arr gs, ?_, by rw [toTVal, hcast]⟩
          rw [goDecodeF]
          norm_num [hgs]
      | .map kvs =>
          rw [wfT, Bool.and_eq_true] at hwf
          rw [noF32] at hnf
          have hszl : sizeOf kvs < n := by
            have : sizeOf (TVal.map kvs) = 1 + sizeOf kvs := by simp
            omega
          obtain ⟨body, hbody, hloop⟩ := (ih (sizeOf kvs) hszl).2.2 kvs le_rfl hwf.1 hnf
          refine ⟨7 :: body, by rw [specEncode, hbody], ?_⟩
          intro fuel hfuel
          obtain ⟨f, rfl⟩ : ∃ f, fuel = f + 1 := ⟨fuel - 1, by omega⟩
          obtain ⟨gs, hgs, hcast⟩ := hloop f (by simp at hfuel; omega)
          have hpw : gs.Pairwise (fun a b => a.1 ≠ b.1) := by
            have hkv : kvs.Pairwise (fun a b => a.1 ≠ b.1) := keysNodup_pairwise kvs hwf.2
            have hkeys : gs.map Prod.fst = kvs.map Prod.fst := by
              rw [← hcast]
              exact (toTValPairs_keys gs).symm
            have h1 : (gs.map Prod.fst).Pairwise (· ≠ ·) := by
              rw [hkeys, List.pairwise_map]
              exact hkv
            rw [List.pairwise_map] at h1
            exact h1
          have hfold : gs.foldl (fun m kv => mapPut m kv.1 kv.2) [] = gs := by
            have := foldl_mapPut gs [] (by intro kv hm; simp at hm) hpw
            simpa using this
          refine ⟨.map gs, ?_, by rw [toTVal, hcast]⟩
          rw [goDecodeF]
          norm_num [hgs, hfold]
    · -- array element lists
      intro vs hsz hwf hnf
      match vs with
      | [] => exact ⟨[], rfl, fun fuel hfuel => ⟨[], by
          obtain ⟨f, rfl⟩ : ∃ f, fuel = f + 1 := ⟨fuel - 1, by omega⟩
          rw [arrLoopF], rfl⟩⟩
      | v :: rest =>
          rw [wfTList, Bool.and_eq_true, Bool.and_eq_true] at hwf
          obtain ⟨⟨hwfv, hlenok⟩, hwfrest⟩ := hwf
          rw [noF32List, Bool.and_eq_true] at hnf
          obtain ⟨hnfv, hnfrest⟩ := hnf
          have hszv : sizeOf v < n := by
            have : sizeOf (v :: rest) = 1 + sizeOf v + sizeOf rest := by simp
            omega
          have hszr : sizeOf rest < n := by
            have h1 : sizeOf (v :: rest) = 1 + sizeOf v + sizeOf rest := by simp
            have h2 : 1 ≤ sizeOf v := by
              cases v <;> simp <;> omega
            omega
          obtain ⟨entry, hentry, hdecv⟩ := (ih (sizeOf v) hszv).1 v le_rfl hwfv hnfv
          obtain ⟨restBody, hrest, hloop⟩ :=
            (ih (sizeOf rest) hszr).2.1 rest le_rfl hwfrest hnfrest
          have hlenlt : entry.length < 2 ^ 36 := by
            rw [encLenOk, hentry] at hlenok
            exact of_decide_eq_true hlenok
          refine ⟨writeVarint entry.length ++ entry ++ restBody,
            by rw [encodeArr, hentry, hrest], ?_⟩
          intro fuel hfuel
          obtain ⟨f, rfl⟩ : ∃ f, fuel = f + 1 := ⟨fuel - 1, by omega⟩
          simp only [List.length_append] at hfuel
          set w := (writeVarint entry.length).length with hw
          have hw1 : 1 ≤ w := by
            rw [hw]
            exact writeVarint_length_pos _
          obtain ⟨r, rs, hbody⟩ :
              ∃ r rs, writeVarint entry.length ++ entry ++ restBody = r :: rs := by
            cases hc : writeVarint entry.length ++ entry ++ restBody with
            | nil =>
                simp only [List.append_eq_nil] at hc
                have : w = 0 := by rw [hw, hc.1.1]; rfl
                omega
            | cons r rs => exact ⟨r, rs, rfl⟩
          have hlen : (r :: rs).length = w + entry.length + restBody.length := by
            rw [← hbody]
            simp [hw]
            omega
          have hrv : readVarint (r :: rs) = .ok entry.length w := by
            rw [← hbody, List.append_assoc]
            exact readVarint_writeVarint entry.length hlenlt (entry ++ restBody)
          have hdrop : (r :: rs).drop w = entry ++ restBody := by
            rw [← hbody, List.append_assoc, hw]
            exact List.drop_left _ _
          have hslice : ((r :: rs).drop w).take entry.length = entry := by
            rw [hdrop]
            exact List.take_left _ _
          have hdrop2 : (r :: rs).drop (entry.length + w) = restBody := by
            rw [Nat.add_comm entry.length w, ← List.drop_drop, hdrop]
            exact List.drop_left _ _
          obtain ⟨g, hg, hgcast⟩ := hdecv f (by omega)
          obtain ⟨gs, hgs, hgscast⟩ := hloop f (by omega)
          refine ⟨g :: gs, ?_, by rw [toTValList, hgcast, hgscast]⟩
          rw [hbody, arrLoopF]
          rw [hrv]
          norm_num [hlen]
          rw [if_neg (by omega), hslice, hg, hdrop2, hgs]
    · -- map record lists
      intro kvs hsz hwf hnf
      match kvs with
      | [] => exact ⟨[], rfl, fun fuel hfuel => ⟨[], by
          obtain ⟨f, rfl⟩ : ∃ f, fuel = f + 1 := ⟨fuel - 1, by omega⟩
          rw [mapLoopF], rfl⟩⟩
      | (k, v) :: rest =>
          rw [wfTPairs, Bool.and_eq_true, Bool.and_eq_true, Bool.and_eq_true,
            Bool.and_eq_true] at hwf
          obtain ⟨⟨⟨⟨hk256, hklen⟩, hwfv⟩, hlenok⟩, hwfrest⟩ := hwf
          rw [noF32Pairs, Bool.and_eq_true] at hnf
          obtain ⟨hnfv, hnfrest⟩ := hnf
          have hszv : sizeOf v < n := by
            have : sizeOf ((k, v) :: rest) = 1 + (1 + sizeOf k + sizeOf v) + sizeOf rest := by
              simp
            omega
          have hszr : sizeOf rest < n := by
            have : sizeOf ((k, v) :: rest) = 1 + (1 + sizeOf k + sizeOf v) + sizeOf rest := by
              simp
            have h2 : 1 ≤ sizeOf v := by
              cases v <;> simp <;> omega
            omega
          obtain ⟨entry, hentry, hdecv⟩ := (ih (sizeOf v) hszv).1 v le_rfl hwfv hnfv
          obtain ⟨restBody, hrest, hloop⟩ :=
            (ih (sizeOf rest) hszr).2.2 rest le_rfl hwfrest hnfrest
          have hlenlt : entry.length < 2 ^ 36 := by
            rw [encLenOk, hentry] at hlenok
            exact of_decide_eq_true hlenok
          have hklenlt : k.length < 2 ^ 36 := of_decide_eq_true hklen
          refine ⟨writeVarint k.length ++ k ++ (writeVarint entry.length ++ entry ++ restBody),
            by simp [encodePairs, hentry, hrest, List.append_assoc], ?_⟩
          intro fuel hfuel
          obtain ⟨f, rfl⟩ : ∃ f, fuel = f + 1 := ⟨fuel - 1, by omega⟩
          simp only [List.length_append] at hfuel
          set wk := (writeVarint k.length).length with hwk
          set wv := (writeVarint entry.length).length with hwv
          have hwk1 : 1 ≤ wk := by
            rw [hwk]
            exact writeVarint_length_pos _
          have hwv1 : 1 ≤ wv := by
            rw [hwv]
            exact writeVarint_length_pos _
          obtain ⟨r, rs, hbody⟩ :
              ∃ r rs, writeVarint k.length ++ k ++ (writeVarint entry.length ++ entry ++ restBody)
                = r :: rs := by
            cases hc : writeVarint k.length ++ k ++ (writeVarint entry.length ++ entry ++ restBody)
              with
            | nil =>
                simp only [List.append_eq_nil] at hc
                have : wk = 0 := by rw [hwk, hc.1.1]; rfl
                omega
            | cons r rs => exact ⟨r, rs, rfl⟩
          have hlen : (r :: rs).length =
              wk + k.length + (wv + entry.length + restBody.length) := by
            rw [← hbody]
            simp [hwk, hwv]
            omega
          have hrv1 : readVarint (r :: rs) = .ok k.length wk := by
            rw [← hbody, List.append_assoc]
            exact readVarint_writeVarint k.length hklenlt _
          have hdropk : (r :: rs).drop wk = k ++ (writeVarint entry.length ++ entry ++ restBody) := by
            rw [← hbody, List.append_assoc, hwk]
            exact List.drop_left _ _
          have hkey : ((r :: rs).drop wk).take k.length = k := by
            rw [hdropk]
            exact List.take_left _ _
          have hrem2 : (r :: rs).drop (k.length + wk) =
              writeVarint entry.length ++ entry ++ restBody := by
            rw [Nat.add_comm k.length wk, ← List.drop_drop, hdropk]
            exact List.drop_left _ _
          have hrv2 : readVarint ((r :: rs).drop (k.length + wk)) = .ok entry.length wv := by
            rw [hrem2, List.append_assoc]
            exact readVarint_writeVarint entry.length hlenlt _
          have hrem2len : ((r :: rs).drop (k.length + wk)).length =
              wv + entry.length + restBody.length := by
            rw [hrem2]
            simp [hwv]
            omega
          have hvalslice : (((r :: rs).drop (k.length + wk)).drop wv).take entry.length
              = entry := by
            rw [hrem2, List.append_assoc, hwv, List.drop_left]
            exact List.take_left _ _
          have hnext : ((r :: rs).drop (k.length + wk)).drop (entry.length + wv) = restBody := by
            rw [hrem2, List.append_assoc, Nat.add_comm entry.length wv, ← List.drop_drop, hwv,
              List.drop_left]
            exact List.drop_left _ _
          obtain ⟨g, hg, hgcast⟩ := hdecv f (by omega)
          obtain ⟨gs, hgs, hgscast⟩ := hloop f (by omega)
          refine ⟨(k, g) :: gs, ?_, by rw [toTValPairs, hgcast, hgscast]⟩
          rw [hbody, mapLoopF]
          rw [hrv1]
          norm_num [hlen]
          rw [if_neg (by omega)]
          norm_num [hrv2]
          rw [if_neg (by omega)]
          have hvalslice2 : ((r :: rs).drop (k.length + wk + wv)).take entry.length = entry := by
            rw [← List.drop_drop]
            exact hvalslice
          have hnext2 : (r :: rs).drop (k.length + wk + (entry.length + wv)) = restBody := by
            rw [← List.drop_drop]
            exact hnext
          norm_num [hkey, hvalslice2, hg, hnext2, hgs]

theorem codec_roundtrip (v : TVal) (h : wfT v = true) (hnf : noF32 v = true) :
    ∃ e, specEncode v = .ok e ∧ ∃ g, fromBadgerType e = .ok g ∧ toTVal g = v := by
  obtain ⟨e, he, hdec⟩ := (roundtrip_all (sizeOf v)).1 v le_rfl h hnf
  exact ⟨e, he, hdec (e.length + 1) (by omega)⟩

theorem fromBadgerType_f32_panics (bits : Nat) :
    specEncode (.f32 bits) = .ok (3 :: natToLE 4 bits) ∧
    fromBadgerType (3 :: natToLE 4 bits) = .panic := by
  refine ⟨rfl, ?_⟩
  have hlen : (natToLE 4 bits).length = 4 := length_natToLE 4 bits
  rw [fromBadgerType]
  simp only [List.length_cons, hlen]
  rw [goDecodeF]
  norm_num
  rw [decodeScalarTag.eq_def]
  norm_num [hlen]

theorem toBadgerTypeInt_minimal_all (z : Int) (h1 : -2 ^ 63 ≤ z) (h2 : z < 2 ^ 63) :
    sextLE ((toBadgerTypeInt z).drop 1) = z ∧
    ∀ L, 1 ≤ L → L < ((toBadgerTypeInt z).drop 1).length →
      ¬ (-(2 : Int) ^ (8 * L - 1) ≤ z ∧ z < 2 ^ (8 * L - 1)) := by
  obtain ⟨p, henc, hne, hle8, hval, hmem, hp⟩ := toBadgerTypeInt_payload z h1 h2
  have hdrop : (toBadgerTypeInt z).drop 1 = p.reverse := by rw [henc]; rfl
  set bs := (natToLE 8 ((z % 2 ^ 64).toNat)).reverse with hbs
  have hbsne : bs ≠ [] := by
    rw [hbs]
    intro hcon
    rw [List.reverse_eq_nil_iff] at hcon
    have := length_natToLE 8 ((z % 2 ^ 64).toNat)
    rw [hcon] at this
    simp at this
  have hsbs : sextBE bs = z := by
    have e1 : sextBE p = z := by
      have : sextLE p.reverse = sextBE p := by rw [sextLE, List.reverse_reverse]
      rw [← this]
      exact hval
    rw [← e1, hp]
    exact (trimIntBE_sext bs).symm
  refine ⟨by rw [hdrop]; exact hval, ?_⟩
  intro L hL1 hLlt hcan
  rw [hdrop] at hLlt
  simp only [List.length_reverse] at hLlt
  have hlen2 : 2 ≤ (trimIntBE bs).length := by rw [← hp]; omega
  have hb256 : ∀ b ∈ bs, b < 256 := by
    intro b hb
    rw [hbs] at hb
    exact natToLE_mem_lt _ _ b (List.mem_reverse.mp hb)
  have hmin := trimIntBE_minimal bs hb256 hbsne hlen2
  rw [hsbs] at hmin
  apply hmin
  have hLle : L ≤ (trimIntBE bs).length - 1 := by rw [← hp]; omega
  have hexp : 8 * L - 1 ≤ 8 * ((trimIntBE bs).length - 1) - 1 := by omega
  have hpow : (2 : Int) ^ (8 * L - 1) ≤ 2 ^ (8 * ((trimIntBE bs).length - 1) - 1) :=
    pow_le_pow_right (by norm_num) hexp
  constructor
  · calc -(2 : Int) ^ (8 * ((trimIntBE bs).length - 1) - 1)
        ≤ -(2 : Int) ^ (8 * L - 1) := by omega
      _ ≤ z := hcan.1
  · calc z < 2 ^ (8 * L - 1) := hcan.2
      _ ≤ 2 ^ (8 * ((trimIntBE bs).length - 1) - 1) := hpow

theorem splitOnByte_ne_nil (sep : Nat) (bs : Bytes) : splitOnByte sep bs ≠ [] := by
  cases bs with
  | nil => simp [splitOnByte]
  | cons b rest =>
      cases hs : splitOnByte sep rest with
      | nil => simp [splitOnByte, hs]
      | cons s ss =>
          by_cases hb : b = sep
          · simp [splitOnByte, hs, hb]
          · simp [splitOnByte, hs, hb]

theorem splitOnByte_length_gt_one (sep : Nat) (bs : Bytes) (h : sep ∈ bs) :
    1 < (splitOnByte sep bs).length := by
  induction bs with
  | nil => simp at h
  | cons b rest ih =>
      cases hs : splitOnByte sep rest with
      | nil => exact absurd hs (splitOnByte_ne_nil sep rest)
      | cons s ss =>
          rcases List.mem_cons.mp h with hb | hb
          · simp [splitOnByte, hs, hb.symm]
          · have h2 := ih hb
            rw [hs] at h2
            simp only [List.length_cons] at h2
            by_cases hbs : b = sep
            · simp [splitOnByte, hs, hbs]
            · simp [splitOnByte, hs, hbs]
              omega

/-! ## Claim theorems -/
/-- C10: for every public key whose length differs from 32 and every
signature whose length differs from 64, `verifySignature` returns `false`
(the guard fires before `ed25519.Verify` is consulted), never a crash. -/
theorem c10_verifySignature_length_guard (ed : Bytes → Bytes → Bytes → Bool)
    (pubKey msg sig : Bytes) (h : pubKey.length ≠ 32 ∨ sig.length ≠ 64) :
    verifySignature ed pubKey msg sig = false := by
  rw [verifySignature, if_pos h]

/-- Witness for C10 at a 31-byte key, with a verifier that always
accepts: the guard still reports `false`. -/
theorem c10_verifySignature_length_guard_witness :
    ((List.replicate 31 (0 : Nat)).length ≠ 32 ∨ (List.replicate 64 (0 : Nat)).length ≠ 64) ∧
      verifySignature (fun _ _ _ => true) (List.replicate 31 0) (str "m")
        (List.replicate 64 0) = false :=
  ⟨Or.inl (by decide),
    c10_verifySignature_length_guard (fun _ _ _ => true) _ _ _ (Or.inl (by decide))⟩

/-- C2 (code bug): for an anonymous transaction — at least 96 bytes, all
of the first 96 zero — whose remaining bytes are a well-formed JSON body,
`unpackTx` does **not** parse those bytes: the `body` variable is never
assigned in the anonymous branch, so the JSON decoder runs on the empty
input and fails with `io.EOF`, and `unpackTx` returns `ErrorBadFormat`
instead of the decoded body with `ErrorOk`. -/
theorem c2_unpackTx_anonymous_body_bug {J : Type} (ed : Bytes → Bytes → Bytes → Bool)
    (jsonDec : Bytes → Except Unit J) (tx : Bytes) (m : J)
    (hjsonEmpty : jsonDec [] = .error ())
    (hjsonBody : jsonDec (tx.drop 96) = .ok m)
    (hlen : 96 ≤ tx.length)
    (hzero : tx.take 96 = List.replicate 96 0) :
    unpackTx ed jsonDec tx = .error ErrorBadFormat ∧ ErrorBadFormat ≠ ErrorOk := by
  refine ⟨?_, by decide⟩
  rw [unpackTx, if_neg (by omega), if_pos hzero, hjsonEmpty]

/-- Witness for C2: 96 zero bytes followed by the JSON body `null`. -/
theorem c2_unpackTx_anonymous_body_bug_witness :
    unpackTx (fun _ _ _ => false)
        (fun bs => if bs.length = 0 then Except.error () else Except.ok ())
        (List.replicate 96 0 ++ str "null") = .error ErrorBadFormat ∧
      ErrorBadFormat ≠ ErrorOk :=
  c2_unpackTx_anonymous_body_bug (fun _ _ _ => false)
    (fun bs => if bs.length = 0 then Except.error () else Except.ok ())
    (List.replicate 96 0 ++ str "null") () (by rfl) (by rfl) (by decide) (by decide)

/-- C4 (code bug): `assembleAccountData` and `assembleQueryData` build
the field map into their local `result` — and then return nil, for every
account; in particular an account with a non-empty public key produces a
non-empty built map yet the functions still return nil. -/
theorem c4_assemble_returns_nil :
    (∀ login, assembleAccountData login = none ∧ assembleQueryData login = none) ∧
    assembleAccountDataBuilt aliceUser = [(str "pubKey", .bytes pk32)] ∧
    assembleQueryDataBuilt aliceUser = [(str "pubKey", .str (b64urlEncode pk32))] := by
  exact ⟨fun login => ⟨rfl, rfl⟩, rfl, rfl⟩

/-- C7 (code bug): for the root account, access evaluation never
completes: the first rule pairs the `all` pattern (`.*`, no capture
groups) with the root account kind, it matches every path and sets
`isGranted`, and the loop body then unconditionally reads `matches[1]` —
an index-out-of-range panic (modelled as `none`) for every path and for
both read and write; `canAccess` never returns `(true, _)` for root. -/
theorem c7_canAccess_root_panics (forWrite : Bool) (name path pubkey sign : Bytes)
    (attrs : List (Bytes × BVal)) (created expires : Int) :
    canAccess forWrite (.mk ⟨.root, name, pubkey, sign, attrs, created, expires⟩ none) path =
      none := by
  cases forWrite <;> rfl

/-- C1 (code bug): the authenticator's first step reads
`"keymap/" + base64url(k)` — lowercase `m` — while the index maintainer's
destination prefix is `"keyMap/"`; the two store keys differ for every
key, so on any store whose keys are the maintainer's `keyMap/…` entries,
`isAuth` finds nothing and reports the key as unknown (anonymous)
instead of resolving it to the owning account. -/
theorem c1_isAuth_reads_wrong_index_key (ed : Bytes → Bytes → Bytes → Bool)
    (k : Bytes) (store : Store)
    (hkeys : ∀ kv ∈ store, kv.1.take 7 = str "keyMap/") :
    isAuth ed store k = .ok none ∧
      str "keymap/" ++ b64urlEncode k ≠ str "keyMap/" ++ b64urlEncode k := by
  constructor
  · have hget : storeGet store (str "keymap/" ++ b64urlEncode k) = none := by
      induction store with
      | nil => rfl
      | cons kv rest ih =>
          obtain ⟨k', v⟩ := kv
          rw [storeGet, if_neg ?_]
          · exact ih (fun kv hm => hkeys kv (by simp [hm]))
          · intro hcon
            have h7 := hkeys (k', v) (by simp)
            rw [hcon] at h7
            have hl : (str "keymap/").length = 7 := by decide
            rw [← hl, List.take_left] at h7
            exact absurd h7 (by decide)
    rw [isAuth]
    simp only [hget]
  · intro hcon
    have := (List.append_inj hcon (by decide)).1
    exact absurd this (by decide)

/-- Witness for C1: a store holding exactly the maintainer's entry
`keyMap/<base64url(pk32)> → "user/alice"`; the authenticator still
returns anonymous. -/
theorem c1_isAuth_reads_wrong_index_key_witness :
    isAuth (fun _ _ _ => true)
        [(str "keyMap/" ++ b64urlEncode pk32, .str (str "user/alice"))] pk32 = .ok none ∧
      str "keymap/" ++ b64urlEncode pk32 ≠ str "keyMap/" ++ b64urlEncode pk32 :=
  c1_isAuth_reads_wrong_index_key (fun _ _ _ => true) pk32 _ (by decide)

/-- The symlink-resolver guard compares a pattern's `DestPrefix` against
a strictly shorter prefix of itself, which can never succeed. -/
theorem destPfx_guard_unsat (d fs : Bytes) (h : fs.length < d.length) :
    d ≠ d.take fs.length := by
  intro hcon
  have := congrArg List.length hcon
  simp [List.length_take] at this
  omega

theorem symlinkScan_id (store : Store) (fs : Bytes) (table : List Bytes)
    (segs : List Bytes) : symlinkScan store fs table segs = .segs segs := by
  induction table generalizing segs with
  | nil => rfl
  | cons d rest ih =>
      rw [symlinkScan, if_neg ?_]
      · exact ih segs
      · rintro ⟨h1, h2⟩
        exact destPfx_guard_unsat d fs h1 h2

theorem resolveLoop_diverges (store : Store) (fuel : Nat) (segs : List Bytes)
    (h : 1 < segs.length) : resolveLoop store fuel segs = none := by
  induction fuel with
  | zero => rfl
  | succ f ih =>
      rw [resolveLoop, if_pos h]
      simp only [symlinkScan_id]
      exact ih

/-- C3 (code bug): symlink resolution does **not** terminate on any path
containing a `:` separator, whatever the store: the prefix guard
(`len(DestPrefix) > len(firstSeg) && DestPrefix == DestPrefix[:len(firstSeg)]`)
is unsatisfiable, so neither table pass ever rewrites `segments`, and the
`for len(segments) > 1` loop spins forever — no fuel bound suffices. -/
theorem c3_resolveSymlinkPath_diverges (store : Store) (fuel : Nat) (path : Bytes)
    (h : 58 ∈ path) : resolveSymlinkPath store fuel path = none := by
  rw [resolveSymlinkPath]
  exact resolveLoop_diverges store fuel _ (splitOnByte_length_gt_one 58 path h)

/-- Witness for C3 at the spec's own symlink-query path shape. -/
theorem c3_resolveSymlinkPath_diverges_witness :
    resolveSymlinkPath [] 7 (str "users/email/H:auth") = none :=
  c3_resolveSymlinkPath_diverges [] 7 (str "users/email/H:auth") (by decide)

/-- C6 (code bug): writing `user/bob/auth` with a public key already
owned by `user/alice` makes the index maintainer raise its conflict
error — but `setKey` discards the maintainer's return value, reports
success, and writes bob's record anyway, so both accounts end up sharing
`pk32`. -/
theorem c6_setKey_swallows_conflict_error :
    (handlePubkeySymlinkChange conflictStore (str "user/bob/auth") (str "user/bob")
        (str "keyMap/") (some aliceAuthMap)).2 = some () ∧
    setKey conflictStore (str "user/bob/auth") (some aliceAuthMap) =
      .ok (storeSet conflictStore (str "user/bob/auth") aliceAuthMap) ∧
    storeGet (storeSet conflictStore (str "user/bob/auth") aliceAuthMap)
      (str "user/bob/auth") = some aliceAuthMap ∧
    storeGet (storeSet conflictStore (str "user/bob/auth") aliceAuthMap)
      (str "user/alice/auth") = some aliceAuthMap :=
  ⟨rfl, rfl, rfl, rfl⟩

/-- C5 (code bug): `executeTx` applies entries into the shared block
transaction as it goes and returns the error of the first failing entry
without discarding the batch — the earlier entry's write is still in the
batch, and `Commit` persists it: transactions are not atomic. -/
theorem c5_executeTx_partial_write_survives (ed : Bytes → Bytes → Bytes → Bool) :
    executeTx ed 5 0 pk32 (some aliceUser) c5entries [] =
      .ret ErrorUnauth [(str "user/alice/store/a", .str (str "v"))] ∧
    storeGet (commitStore 1 [(str "user/alice/store/a", .str (str "v"))])
      (str "user/alice/store/a") = some (.str (str "v")) ∧
    ErrorUnauth ≠ ErrorOk :=
  ⟨rfl, rfl, by decide⟩

/-- C8 (code bug): the round-trip `decode(encode(v)) = v` holds for
every well-formed value **free of float32** — with minimal-length
integer encodings under the sign-extension rule and the spec's four
concrete encodings: 127 ↦ `[0x02, 0x7F]`, 128 ↦ `[0x02, 0x80, 0x00]`,
-1 ↦ `[0x02, 0xFF]`, 2^63 as unsigned ↦ the 10-byte form with trailing
`0x00` — but the `float32` decode branch re-slices its 5-byte input as
`val[1:9]`, a slice-bounds panic, so decoding the encoder's own
`float32` output panics for every `float32` value and the claimed
universal round-trip over the supported typed-value set fails. -/
theorem c8_codec_roundtrip_fails_at_float32 :
    (∀ v : TVal, wfT v = true → noF32 v = true →
        ∃ e, specEncode v = Except.ok e ∧
          ∃ g, fromBadgerType e = DRes.ok g ∧ toTVal g = v) ∧
    (∀ bits : Nat,
        wfT (TVal.f32 (bits % 2 ^ 32)) = true ∧
        specEncode (TVal.f32 (bits % 2 ^ 32)) =
          Except.ok (3 :: natToLE 4 (bits % 2 ^ 32)) ∧
        fromBadgerType (3 :: natToLE 4 (bits % 2 ^ 32)) = DRes.panic) ∧
    (∀ z : Int, -2 ^ 63 ≤ z → z < 2 ^ 63 →
        sextLE ((toBadgerTypeInt z).drop 1) = z ∧
        ∀ L, 1 ≤ L → L < ((toBadgerTypeInt z).drop 1).length →
          ¬ (-(2 : Int) ^ (8 * L - 1) ≤ z ∧ z < 2 ^ (8 * L - 1))) ∧
    toBadgerTypeInt 127 = [2, 0x7F] ∧
    toBadgerTypeInt 128 = [2, 0x80, 0x00] ∧
    toBadgerTypeInt (-1) = [2, 0xFF] ∧
    toBadgerTypeUint (2 ^ 63) = [2, 0, 0, 0, 0, 0, 0, 0, 0x80, 0] :=
  ⟨codec_roundtrip,
    fun bits => ⟨by simp [wfT, Nat.mod_lt, Nat.pos_pow_of_pos],
      (fromBadgerType_f32_panics (bits % 2 ^ 32)).1,
      (fromBadgerType_f32_panics (bits % 2 ^ 32)).2⟩,
    toBadgerTypeInt_minimal_all, by decide, by decide, by decide, by decide⟩

/-- C9 counterexample: duplicate map keys are **not** a decoding error —
the later record silently overwrites the earlier one — and a truncated
varint makes `fromBadgerType` panic (index out of range) instead of
returning an error. -/
theorem c9_decode_not_total_counterexample :
    fromBadgerType dupMapBytes = .ok (.map [(str "a", .i32 6)]) ∧
    fromBadgerType [6, 0xC0] = .panic :=
  ⟨rfl, rfl⟩

/-- C9 (amended): decoding returns a value or a propagated error for the
empty input, short bool input and unknown tags, but a truncated varint
continuation or an element length running past the end of the buffer is
an out-of-range panic rather than an error, and a Map payload with two
records sharing a key decodes successfully with the later record
overwriting the earlier. -/
theorem c9_decode_failure_modes :
    fromBadgerType [] = .err ∧
    (∀ t rest, 8 ≤ t → fromBadgerType (t :: rest) = .err) ∧
    fromBadgerType [1] = .err ∧
    fromBadgerType [6, 0xC0] = .panic ∧
    fromBadgerType [6, 5] = .panic ∧
    fromBadgerType dupMapBytes = .ok (.map [(str "a", .i32 6)]) := by
  refine ⟨rfl, ?_, rfl, rfl, rfl, rfl⟩
  intro t rest ht
  rw [fromBadgerType]
  rw [goDecodeF]
  rw [if_neg (by omega), if_neg (by omega)]
  rw [decodeScalarTag.eq_def]
  rw [if_neg (by omega), if_neg (by omega), if_neg (by omega), if_neg (by omega),
    if_neg (by omega)]

/-- Witness for C9's amended statement at a concrete unknown tag. -/
theorem c9_decode_failure_modes_witness :
    fromBadgerType [8, 1, 2] = .err :=
  c9_decode_failure_modes.2.1 8 [1, 2] (by decide)
